import Mathlib

/-!
# Course page behaviours (`modules/explorer/_static/js/course.js`)

A shallow embedding of the document-ready function of the course page and of
the three event handlers it registers, together with the part of the
jQuery / DOM semantics the script relies on.

* the document is a forest of elements in first-child / next-sibling form,
  an element is referred to by its path of child indices;
* a jQuery selection is the list of paths, in document order, of the
  elements matching a selector;
* calls into the widget toolkit and into `window` are recorded, in order,
  in a call log carried by the page state.
-/

namespace CourseJs

/-! ## Elements and documents -/

/-- What the script can observe of, or change on, one element: tag name, `id`,
class list, the toolkit widgets set up on it, and whether the slide-out
panel it triggers is open. -/
structure Attrs where
  tag : String
  ident : String
  classes : List String
  widgets : List String
  navOpen : Bool
  deriving DecidableEq, Repr

/-- A document fragment: a sequence of sibling elements, each with the forest
of its children (`firstChild` / `nextSibling` of the DOM). -/
inductive Dom where
  | nil : Dom
  | node (a : Attrs) (kids : Dom) (sibs : Dom) : Dom
  deriving DecidableEq, Repr

/-- An element reference: the index among the top-level elements, then the
child index at every level below. -/
abbrev Path := List Nat

namespace Dom

/-- The `i`-th element of a sibling sequence: its attributes and children. -/
def child : Dom → Nat → Option (Attrs × Dom)
  | nil, _ => none
  | node a kids _, 0 => some (a, kids)
  | node _ _ sibs, i + 1 => child sibs i

/-- The element a path refers to, with its children. -/
def elemAt : Dom → Path → Option (Attrs × Dom)
  | _, [] => none
  | d, [i] => child d i
  | d, i :: j :: p =>
    match child d i with
    | some (_, kids) => elemAt kids (j :: p)
    | none => none

/-- Attributes of the element at a path. -/
def attrsAt (d : Dom) (p : Path) : Option Attrs :=
  (elemAt d p).map Prod.fst

/-- Number of elements in a sibling sequence. -/
def count : Dom → Nat
  | nil => 0
  | node _ _ sibs => count sibs + 1

/-- Concatenation of two sibling sequences. -/
def append : Dom → Dom → Dom
  | nil, e => e
  | node a kids sibs, e => node a kids (append sibs e)

/-- Paths of all elements, in document order; `pp` is the path of the parent
and `i` the index of the first element of the sequence. -/
def pathsFrom : Path → Nat → Dom → List Path
  | _, _, nil => []
  | pp, i, node _ kids sibs =>
    (pp ++ [i]) :: (pathsFrom (pp ++ [i]) 0 kids ++ pathsFrom pp (i + 1) sibs)

/-- Paths of all elements of the document, in document order. -/
def paths (d : Dom) : List Path := pathsFrom [] 0 d

/-- Replace the attributes of the `i`-th element of a sibling sequence and
the forest of its children. -/
def modifyChild (f : Attrs → Dom → Attrs × Dom) : Dom → Nat → Dom
  | nil, _ => nil
  | node a kids sibs, 0 => node (f a kids).1 (f a kids).2 sibs
  | node a kids sibs, i + 1 => node a kids (modifyChild f sibs i)

/-- Apply `g` to the attributes of the element at path `p`. -/
def updateAttrs (g : Attrs → Attrs) : Path → Dom → Dom
  | [], d => d
  | [i], d => modifyChild (fun a kids => (g a, kids)) d i
  | i :: j :: p, d => modifyChild (fun a kids => (a, updateAttrs g (j :: p) kids)) d i

/-- Append the elements `extra` after the last child of the element at `p`. -/
def appendKids (extra : Dom) : Path → Dom → Dom
  | [], d => d
  | [i], d => modifyChild (fun a kids => (a, append kids extra)) d i
  | i :: j :: p, d => modifyChild (fun a kids => (a, appendKids extra (j :: p) kids)) d i

end Dom

/-! ## Selectors -/

/-- A simple selector: tag name, `.class` or `#id`. -/
inductive Simple where
  | tag (t : String)
  | cls (c : String)
  | ident (i : String)
  deriving DecidableEq, Repr

/-- The selectors the script uses: a simple selector, or two simple selectors
joined by the descendant combinator (`.a .b`). -/
inductive Selector where
  | simple (s : Simple)
  | descendant (anc : Simple) (s : Simple)
  deriving DecidableEq, Repr

/-- Whether an element with the given attributes matches a simple selector. -/
def Simple.test : Simple → Attrs → Bool
  | .tag t, a => a.tag == t
  | .cls c, a => a.classes.contains c
  | .ident i, a => a.ident == i

/-- Whether the element at `p` exists and matches a simple selector. -/
def matchesAt (d : Dom) (s : Simple) (p : Path) : Bool :=
  match d.attrsAt p with
  | some a => s.test a
  | none => false

/-- Walk from an element towards the root (`parentNode` at each step) and
return the first element that matches `s`.  The argument is the path of the
starting element written leaf first. -/
def closestRev (d : Dom) (s : Simple) : List Nat → Option Path
  | [] => none
  | i :: r =>
    if matchesAt d s (i :: r).reverse then some (i :: r).reverse
    else closestRev d s r

/-- jQuery `$(p).closest(s)`: the nearest ancestor-or-self of the element at
`p` that matches `s`, if there is one. -/
def closest (d : Dom) (s : Simple) (p : Path) : Option Path :=
  closestRev d s p.reverse

/-- Whether the element at `p` exists and matches the selector. -/
def Selector.matchesAt (d : Dom) : Selector → Path → Bool
  | .simple s, p => CourseJs.matchesAt d s p
  | .descendant anc s, p =>
    CourseJs.matchesAt d s p && (closest d anc p.dropLast).isSome

/-- jQuery `$(sel)`: the matching elements of the document, in document
order. -/
def select (d : Dom) (sel : Selector) : List Path :=
  d.paths.filter (sel.matchesAt d)

/-- jQuery `$('#id')`: at most one element, the first in document order. -/
def selectId (d : Dom) (i : String) : List Path :=
  (select d (.simple (.ident i))).take 1

/-- jQuery `.each`: apply `g` to every element of the selection in turn. -/
def each (sel : List Path) (g : Attrs → Attrs) (d : Dom) : Dom :=
  sel.foldl (fun acc p => Dom.updateAttrs g p acc) d

/-- jQuery `.toggleClass(c)` on one element: remove the class when the
element has it, add it otherwise. -/
def toggleClass (c : String) (a : Attrs) : Attrs :=
  if a.classes.contains c then { a with classes := a.classes.filter (fun x => x != c) }
  else { a with classes := a.classes ++ [c] }

/-- jQuery `.hasClass(c)` on one element. -/
def hasClass (c : String) (a : Attrs) : Bool := a.classes.contains c

/-- The markup of an element: what is left when the widget instances and
their state, which jQuery keeps outside the markup, are dropped. -/
def Attrs.bare (a : Attrs) : Attrs :=
  { a with widgets := [], navOpen := false }

namespace Dom

/-- The markup of every element of a fragment. -/
def stripData : Dom → Dom
  | nil => nil
  | node a kids sibs => node a.bare (stripData kids) (stripData sibs)

/-- Number of children of the element at `p` (0 when there is no such
element). -/
def kidCount (d : Dom) (p : Path) : Nat :=
  match elemAt d p with
  | some (_, kids) => count kids
  | none => 0

end Dom

/-- jQuery `.clone()` of one element: a deep copy of the element and its
descendants; widget instances and event data are not copied. -/
def cloneAt (d : Dom) (p : Path) : Dom :=
  match d.elemAt p with
  | some (a, kids) => Dom.stripData (.node a kids .nil)
  | none => .nil

/-- jQuery `.clone()` of a selection: the copies, in selection order. -/
def cloneAll (d : Dom) : List Path → Dom
  | [] => .nil
  | p :: ps => (cloneAt d p).append (cloneAll d ps)

/-- jQuery `.appendTo(target)` for a target selection of at most one
element: the fragment becomes the last children of the target; with no
target nothing is inserted. -/
def appendTo (frag : Dom) (target : List Path) (d : Dom) : Dom :=
  match target with
  | [] => d
  | t :: _ => Dom.appendKids frag t d

/-! ## Layout, calls and page state -/

/-- A position as returned by jQuery `.position()`. -/
structure Coord where
  left : ℚ
  top : ℚ
  deriving DecidableEq

/-- A non-negative JS Number, kept as the finite decimal `mant / 10 ^ scale`;
every finite binary floating-point number is such a decimal, whole or
fractional (`277.5` is `2775 / 10 ^ 1`). -/
structure JsNum where
  mant : Nat
  scale : Nat
  deriving DecidableEq, Repr

namespace JsNum

/-- The number denoted. -/
def value (x : JsNum) : ℚ := (x.mant : ℚ) / 10 ^ x.scale

/-- A whole number. -/
def ofNat (n : Nat) : JsNum := ⟨n, 0⟩

/-- JS `x / 2`.  Halving a binary floating-point number does not round, so
the quotient is the exact half. -/
def half (x : JsNum) : JsNum := ⟨x.mant * 5, x.scale + 1⟩

/-- The decimal `m / 10 ^ k` without trailing zeros in its fraction. -/
def trim : Nat → Nat → JsNum
  | m, 0 => ⟨m, 0⟩
  | m, k + 1 => if m % 10 = 0 then trim (m / 10) k else ⟨m, k + 1⟩

/-- The `k` lowest decimal digits of `f`, most significant first. -/
def fracChars : Nat → Nat → List Char
  | 0, _ => []
  | k + 1, f => Nat.digitChar (f / 10 ^ k % 10) :: fracChars k f

/-- JS `x + ''` (Number to String): the whole part in decimal digits and,
when the number is not whole, a point and the digits of the fraction
without trailing zeros.  (The exponent form, which JS uses below `1e-6` and
from `1e21` on, is not modelled.) -/
def text (x : JsNum) : String :=
  let y := trim x.mant x.scale
  if y.scale = 0 then toString y.mant
  else toString (y.mant / 10 ^ y.scale) ++ "." ++
    String.mk (fracChars y.scale (y.mant % 10 ^ y.scale))

end JsNum

/-- What the browser computes from the document and its style sheets: the
content width in pixels (a JS Number, possibly fractional) and the position
of every element. -/
structure Layout where
  width : Dom → Path → JsNum
  position : Dom → Path → Coord

/-- jQuery `.width()`: the width of the first element of the selection, no
value for an empty selection. -/
def widthOf (env : Layout) (d : Dom) : List Path → Option JsNum
  | [] => none
  | p :: _ => some (env.width d p)

/-- jQuery `.position()`: the position of the first element of the
selection, no value for an empty selection. -/
def positionOf (env : Layout) (d : Dom) : List Path → Option Coord
  | [] => none
  | p :: _ => some (env.position d p)

/-- The three functions the script registers as event handlers. -/
inductive Handler where
  | carouselChanged
  | toggleSidebar
  | closeSideNav
  deriving DecidableEq, Repr

/-- An event listener registered with jQuery `.on`: the elements it is
attached to, the event name, the delegation selector if any, and the
function. -/
structure Binding where
  elems : List Path
  event : String
  delegate : Option Simple
  handler : Handler
  deriving DecidableEq, Repr

/-- A call into the widget toolkit or into `window`. -/
inductive Call where
  | plugin (name : String) (sel : List Path) (args : List String)
  | animate (sel : List Path) (property : String) (value : String) (duration : Nat)
  | scrollTo (behavior : String) (left : ℚ) (top : ℚ)
  deriving DecidableEq

/-- An uncaught JavaScript exception. -/
inductive JsError where
  | typeError (msg : String)
  deriving DecidableEq, Repr

/-- The page while the script is live: the document, the closure variable
`sidebarToggle`, the registered listeners and the calls issued so far. -/
structure Page where
  dom : Dom
  sidebarToggle : Bool
  bindings : List Binding
  calls : List Call

/-! ## The widget toolkit -/

/-- Modelled from the spec: the toolkit plugins (`sideNav`, `material_select`,
`dropdown`, `owlCarousel`, `collapsible`) are not part of the script.  A
plugin call sets up its widget on every element of the selection and is
inert on an empty selection; here setting up is recording the widget name
on the element. -/
def addWidget (name : String) (a : Attrs) : Attrs :=
  { a with widgets := a.widgets ++ [name] }

/-- Modelled from the spec: the toolkit command `sideNav('hide')` hides the
slide-out panel of every trigger in the selection, whether it was shown or
not. -/
def hideNav (a : Attrs) : Attrs :=
  { a with navOpen := false }

/-- A plugin call `$(sel).name(args)`: the call is logged with the
selection it was made on, and the widget is set up on each selected
element. -/
def callPlugin (name : String) (sel : Selector) (args : List String) (s : Page) : Page :=
  { s with
    dom := each (select s.dom sel) (addWidget name) s.dom
    calls := s.calls ++ [Call.plugin name (select s.dom sel) args] }

/-- Registration `$(sel).on(event, delegate, handler)`. -/
def bindOn (sel : Selector) (event : String) (delegate : Option Simple) (h : Handler)
    (s : Page) : Page :=
  { s with bindings := s.bindings ++ [⟨select s.dom sel, event, delegate, h⟩] }

/-! ## Number to string conversions used by the toggle handler -/

/-- JS `sidebarWidth + ''`: the number as text, `undefined` when `.width()`
gave no value. -/
def numToString : Option JsNum → String
  | some x => x.text
  | none => "undefined"

/-- JS `sidebarWidth / 2 + ''`: the exact half as text; `undefined / 2` is
`NaN`. -/
def halfToString : Option JsNum → String
  | some x => x.half.text
  | none => "NaN"

/-! ## The event handlers (lines 17-25, 28-35, 39-41) -/

/-- Handler of `changed.owl.carousel` (lines 17-25).  `target` is
`event.target`.  Reading `.left` of the missing result of `.position()`
throws. -/
def onCarouselChanged (env : Layout) (s : Page) (target : Path) : Except JsError Page :=
  let changed_carousel := (closest s.dom (.cls "course-carousel") target).toList
  let position_coordinates := positionOf env s.dom changed_carousel
  match position_coordinates with
  | none => .error (.typeError "Cannot read property left of undefined")
  | some c => .ok { s with calls := s.calls ++ [Call.scrollTo "smooth" c.left c.top] }

/-- Click handler of `#hideCourseSidenav` (lines 28-35). -/
def onToggleSidebar (env : Layout) (s : Page) : Page :=
  let sidebarToggle := !s.sidebarToggle
  let sidebarWidth : Option JsNum :=
    if sidebarToggle then widthOf env s.dom (select s.dom (.simple (.cls "course-accordion")))
    else some (JsNum.ofNat 0)
  let dom1 := each (select s.dom (.simple (.cls "course-accordion"))) (toggleClass "hide-sidenav") s.dom
  { dom := dom1
    sidebarToggle := sidebarToggle
    bindings := s.bindings
    calls := s.calls ++
      [ Call.animate (select dom1 (.simple (.cls "course-card"))) "margin-left"
          (halfToString sidebarWidth ++ "px") 300,
        Call.animate (select dom1 (.simple (.cls "course-accordion"))) "margin-left"
          ("-" ++ numToString sidebarWidth ++ "px") 300 ] }

/-- Click handler of `#closeSideNav` (lines 39-41). -/
def onCloseSideNav (s : Page) : Page :=
  { s with
    dom := each (select s.dom (.simple (.cls "button-collapse"))) hideNav s.dom
    calls := s.calls ++
      [Call.plugin "sideNav" (select s.dom (.simple (.cls "button-collapse"))) ["hide"]] }

/-! ## The document-ready function (lines 1-42) -/

/-- Line 37: copy every `.collapsible` inside `.course-accordion` into
`#courseMobileSidebar`. -/
def cloneStep (s : Page) : Page :=
  { s with
    dom := appendTo
      (cloneAll s.dom (select s.dom (.descendant (.cls "course-accordion") (.cls "collapsible"))))
      (selectId s.dom "courseMobileSidebar") s.dom }

/-- The options object passed to `owlCarousel` (lines 6-15). -/
def owlOptions : List String :=
  ["loop: false", "margin: 10", "nav: true",
   "navText: chevron_left, chevron_right", "items: 1"]

/-- Lines 2-35 of `documentReady`: the widget set-up calls, the carousel
listener, the flag and the toggle listener. -/
def beforeClone (d : Dom) : Page :=
  let s0 : Page := { dom := d, sidebarToggle := false, bindings := [], calls := [] }
  let s1 := callPlugin "sideNav" (.simple (.cls "button-collapse")) [] s0
  let s2 := callPlugin "material_select" (.simple (.tag "select")) [] s1
  let s3 := callPlugin "dropdown" (.simple (.cls "dropdown-button")) [] s2
  let s4 := callPlugin "owlCarousel" (.simple (.cls "course-carousel")) owlOptions s3
  let s5 := bindOn (.simple (.cls "course-carousel")) "changed.owl.carousel" none
    .carouselChanged s4
  let s6 := { s5 with sidebarToggle := false }
  bindOn (.simple (.tag "body")) "click" (some (.ident "hideCourseSidenav"))
    .toggleSidebar s6

/-- The function `documentReady`, run once on the loaded document: lines
2-35, then the clone step (line 37), the collapsible set-up (line 38) and
the close-nav listener (lines 39-41). -/
def documentReady (d : Dom) : Page :=
  let s7 := beforeClone d
  let s8 := cloneStep s7
  let s9 := callPlugin "collapsible" (.simple (.cls "collapsible")) [] s8
  bindOn (.simple (.tag "body")) "click" (some (.ident "closeSideNav")) .closeSideNav s9

/-! ## Running the page -/

/-- The events the registered handlers react to. -/
inductive Event where
  | toggleClick
  | closeNavClick
  | carouselChanged (target : Path)
  deriving DecidableEq, Repr

/-- One handler invocation.  An exception thrown by a handler is reported by
the browser and the page goes on; the carousel handler throws before it has
changed anything. -/
def dispatch (env : Layout) (s : Page) : Event → Page
  | .toggleClick => onToggleSidebar env s
  | .closeNavClick => onCloseSideNav s
  | .carouselChanged target =>
    match onCarouselChanged env s target with
    | .ok s1 => s1
    | .error _ => s

/-- The page after a sequence of handler invocations. -/
def run (env : Layout) (s : Page) (es : List Event) : Page :=
  es.foldl (dispatch env) s

/-! ## Vocabulary for the statements -/

namespace Dom

/-- Every element of the fragment, at any depth, satisfies `P`. -/
def All (P : Attrs → Prop) : Dom → Prop
  | nil => True
  | node a kids sibs => P a ∧ All P kids ∧ All P sibs

/-- Whether every element satisfies `P` can be computed when `P` can. -/
instance decidableAll (P : Attrs → Prop) [DecidablePred P] : (d : Dom) → Decidable (All P d)
  | nil => isTrue trivial
  | node a kids sibs =>
    have := decidableAll P kids
    have := decidableAll P sibs
    inferInstanceAs (Decidable (P a ∧ All P kids ∧ All P sibs))

/-- Apply `f` to the attributes of every element of the fragment. -/
def map (f : Attrs → Attrs) : Dom → Dom
  | nil => nil
  | node a kids sibs => node (f a) (map f kids) (map f sibs)

/-- Apply `f` to the attributes of every element, `f` being told the path of
the element within the fragment. -/
def mapR : (Path → Attrs → Attrs) → Dom → Dom
  | _, nil => nil
  | f, node a kids sibs =>
    node (f [0] a) (mapR (fun r => f (0 :: r)) kids)
      (mapR (fun q => match q with
        | [] => f []
        | j :: r => f ((j + 1) :: r)) sibs)

end Dom

end CourseJs
/-! ## Sample pages -/

namespace CourseJs

/-- An element as it comes from the markup: no widget set up, panel closed. -/
def el (tag ident : String) (classes : List String) : Attrs := ⟨tag, ident, classes, [], false⟩
/-- A course page with every element the script looks for:
`body > a.button-collapse, div.course-accordion > ul.collapsible > li,
div.course-card, div#courseMobileSidebar, div.course-carousel > div.item`. -/
def samplePage : Dom :=
  .node (el "body" "" [])
    (.node (el "a" "" ["button-collapse"]) .nil
    (.node (el "div" "" ["course-accordion"])
       (.node (el "ul" "" ["collapsible"]) (.node (el "li" "" []) .nil .nil) .nil)
    (.node (el "div" "" ["course-card"]) .nil
    (.node (el "div" "courseMobileSidebar" []) .nil
    (.node (el "div" "" ["course-carousel"]) (.node (el "div" "" ["item"]) .nil .nil) .nil)))))
    .nil
/-- A layout in which the sidebar is 301 pixels wide. -/
def sampleLayout : Layout := ⟨fun _ _ => ⟨301, 0⟩, fun _ p => ⟨p.length, 7⟩⟩

/-- A layout in which the sidebar is 277.5 pixels wide. -/
def fractionalLayout : Layout := ⟨fun _ _ => ⟨2775, 1⟩, fun _ p => ⟨p.length, 7⟩⟩

/-- A layout in which the sidebar has no width. -/
def zeroLayout : Layout := ⟨fun _ _ => ⟨0, 0⟩, fun _ p => ⟨p.length, 7⟩⟩


end CourseJs

namespace CourseJs

/-- The flag agrees with the visual state of the sidebar: on every
`.course-accordion` element, `sidebarToggle` is true exactly when the element
carries the class `hide-sidenav`. -/
def flagMatchesSidebar (s : Page) : Prop :=
  Dom.All (fun a => hasClass "course-accordion" a = true →
    (s.sidebarToggle = true ↔ hasClass "hide-sidenav" a = true)) s.dom

/-- The markup shows the sidebar expanded: no `.course-accordion` element
carries the class `hide-sidenav`. -/
def loadsExpanded (d : Dom) : Prop :=
  Dom.All (fun a => hasClass "course-accordion" a = true → hasClass "hide-sidenav" a = false) d

instance (s : Page) : Decidable (flagMatchesSidebar s) := by
  unfold flagMatchesSidebar
  infer_instance

instance (d : Dom) : Decidable (loadsExpanded d) := by
  unfold loadsExpanded
  infer_instance

/-- What lines 2-15 do to one element: the widgets whose selector the
element matches are set up on it, in source order. -/
def widgetSetup (a : Attrs) : Attrs :=
  let a1 := if (Simple.cls "button-collapse").test a = true then addWidget "sideNav" a else a
  let a2 := if (Simple.tag "select").test a1 = true then addWidget "material_select" a1 else a1
  let a3 := if (Simple.cls "dropdown-button").test a2 = true then addWidget "dropdown" a2 else a2
  if (Simple.cls "course-carousel").test a3 = true then addWidget "owlCarousel" a3 else a3

/-- The elements the carousel listener of line 17 is attached to. -/
def carouselBound (s : Page) : List Path :=
  (s.bindings.filter (fun b => b.handler == Handler.carouselChanged)).flatMap Binding.elems

/-- An event the carousel listener can receive: its target is an element the
listener is attached to, or lies below one. -/
def receivable (s : Page) (target : Path) : Prop :=
  ∃ e ∈ carouselBound s, e <+: target

/-- The elements line 37 copies: every `.collapsible` inside a
`.course-accordion`, in document order. -/
def cloneSources (d : Dom) : List Path :=
  select d (.descendant (.cls "course-accordion") (.cls "collapsible"))

/-- The document right after the clone step (line 37). -/
def afterClone (d : Dom) : Dom := (cloneStep (beforeClone d)).dom

/-- The selection line 38 calls `collapsible()` on. -/
def collapsibleTargets (d : Dom) : List Path :=
  select (afterClone d) (.simple (.cls "collapsible"))

/-- A page whose markup already shows the sidebar collapsed:
`body > div.course-accordion.hide-sidenav`. -/
def collapsedPage : Dom :=
  .node (el "body" "" [])
    (.node (el "div" "" ["course-accordion", "hide-sidenav"]) .nil .nil)
    .nil

/-- The simple selectors the script expects to find on the page. -/
def expectedSelectors : List Simple :=
  [.cls "button-collapse", .tag "select", .cls "dropdown-button", .cls "course-carousel",
   .ident "hideCourseSidenav", .cls "course-accordion", .cls "course-card", .cls "collapsible",
   .ident "courseMobileSidebar", .ident "closeSideNav"]

/-- A page with none of the expected elements: `body > div > p, span`. -/
def plainPage : Dom :=
  .node (el "body" "" [])
    (.node (el "div" "main" ["content"]) (.node (el "p" "" []) .nil .nil)
    (.node (el "span" "" []) .nil .nil))
    .nil

/-- A page with a mobile container but nothing to copy into it:
`body > div#courseMobileSidebar > p`. -/
def emptySidebarPage : Dom :=
  .node (el "body" "" [])
    (.node (el "div" "courseMobileSidebar" []) (.node (el "p" "" []) .nil .nil) .nil)
    .nil

end CourseJs

/-! ## Reading a pixel length -/

namespace CourseJs

/-- Read the leading run of decimal digits of `cs`: the number read so far
(starting from `acc`), how many digits were read (starting from `n`), and
the unread rest. -/
def readDigits : Nat → Nat → List Char → Nat × Nat × List Char
  | acc, n, [] => (acc, n, [])
  | acc, n, c :: cs =>
    if c.isDigit then readDigits (acc * 10 + (c.toNat - 48)) (n + 1) cs
    else (acc, n, c :: cs)

/-- The non-negative length denoted by `digits px` or `digits . digits px`;
no value for any other text. -/
def pxMagnitude (cs : List Char) : Option ℚ :=
  let ip := readDigits 0 0 cs
  if ip.2.1 = 0 then none
  else
    match ip.2.2 with
    | '.' :: r =>
      let fp := readDigits 0 0 r
      if fp.2.1 = 0 then none
      else if fp.2.2 = ['p', 'x'] then some ((ip.1 : ℚ) + (fp.1 : ℚ) / 10 ^ fp.2.1)
      else none
    | rest => if rest = ['p', 'x'] then some (ip.1 : ℚ) else none

/-- The length in pixels that a CSS value such as `-301px` or `150.5px`
denotes: an optional minus sign, a decimal number, the unit `px`. -/
def pxValue (s : String) : Option ℚ :=
  match s.data with
  | '-' :: cs => (pxMagnitude cs).map (fun v => -v)
  | cs => pxMagnitude cs

end CourseJs
/-! # Lemmas on documents and selections -/

namespace CourseJs
namespace Dom

/-! ## Lookup -/

@[simp] theorem elemAt_nil (p : Path) : elemAt nil p = none := by
  match p with
  | [] => rfl
  | [_] => rfl
  | _ :: _ :: _ => rfl

@[simp] theorem elemAt_empty (d : Dom) : elemAt d [] = none := by
  cases d <;> rfl

@[simp] theorem elemAt_zero_one (a : Attrs) (k s : Dom) :
    elemAt (node a k s) [0] = some (a, k) := rfl

@[simp] theorem elemAt_zero_cons (a : Attrs) (k s : Dom) (j : Nat) (r : Path) :
    elemAt (node a k s) (0 :: j :: r) = elemAt k (j :: r) := rfl

@[simp] theorem elemAt_succ (a : Attrs) (k s : Dom) (i : Nat) (r : Path) :
    elemAt (node a k s) ((i + 1) :: r) = elemAt s (i :: r) := by
  cases r <;> rfl

@[simp] theorem attrsAt_nil (p : Path) : attrsAt nil p = none := by
  simp [attrsAt]

@[simp] theorem attrsAt_empty (d : Dom) : attrsAt d [] = none := by
  simp [attrsAt]

@[simp] theorem attrsAt_zero_one (a : Attrs) (k s : Dom) :
    attrsAt (node a k s) [0] = some a := rfl

@[simp] theorem attrsAt_zero_cons (a : Attrs) (k s : Dom) (j : Nat) (r : Path) :
    attrsAt (node a k s) (0 :: j :: r) = attrsAt k (j :: r) := rfl

@[simp] theorem attrsAt_succ (a : Attrs) (k s : Dom) (i : Nat) (r : Path) :
    attrsAt (node a k s) ((i + 1) :: r) = attrsAt s (i :: r) := by
  simp [attrsAt]

/-! ## Path-aware maps -/

theorem mapR_id (d : Dom) : mapR (fun _ a => a) d = d := by
  induction d with
  | nil => rfl
  | node a k s ihk ihs =>
    simp only [mapR]
    rw [ihk]
    have : (fun q : Path => match q with
        | [] => (fun a : Attrs => a)
        | _ :: _ => (fun a : Attrs => a)) = fun _ a => a := by
      funext q; cases q <;> rfl
    rw [this, ihs]

theorem mapR_comp (F G : Path → Attrs → Attrs) (d : Dom) :
    mapR F (mapR G d) = mapR (fun q a => F q (G q a)) d := by
  induction d generalizing F G with
  | nil => rfl
  | node a k s ihk ihs =>
    simp only [mapR]
    rw [ihk, ihs]
    congr 1
    congr 1
    funext q; cases q <;> rfl

theorem mapR_eq_map (F : Path → Attrs → Attrs) (f : Attrs → Attrs) (d : Dom)
    (h : ∀ q a, attrsAt d q = some a → F q a = f a) : mapR F d = map f d := by
  induction d generalizing F with
  | nil => rfl
  | node a k s ihk ihs =>
    simp only [mapR, map]
    rw [h [0] a rfl, ihk, ihs]
    · intro q b hq
      cases q with
      | nil => simp at hq
      | cons j r => exact h ((j + 1) :: r) b (by simpa using hq)
    · intro q b hq
      cases q with
      | nil => simp at hq
      | cons j r => exact h (0 :: j :: r) b (by simpa using hq)

theorem mapR_congr (F G : Path → Attrs → Attrs) (d : Dom)
    (h : ∀ q, q ≠ [] → F q = G q) : mapR F d = mapR G d := by
  induction d generalizing F G with
  | nil => rfl
  | node a k s ihk ihs =>
    simp only [mapR]
    rw [h [0] (by simp), ihk _ (fun r => G (0 :: r)) (fun q _ => h (0 :: q) (by simp)),
      ihs _ (fun q => match q with
        | [] => G []
        | j :: r => G ((j + 1) :: r))]
    intro q hq
    cases q with
    | nil => exact absurd rfl hq
    | cons j r => exact h ((j + 1) :: r) (by simp)

theorem mapR_eq_self (F : Path → Attrs → Attrs) (d : Dom)
    (h : ∀ q a, q ≠ [] → F q a = a) : mapR F d = d := by
  rw [mapR_congr F (fun _ a => a) d (fun q hq => funext (fun a => h q a hq)), mapR_id]

theorem updateAttrs_eq_mapR (g : Attrs → Attrs) (p : Path) (d : Dom) :
    updateAttrs g p d = mapR (fun q a => if q = p then g a else a) d := by
  induction d generalizing p with
  | nil =>
    match p with
    | [] => rfl
    | [_] => rfl
    | _ :: _ :: _ => rfl
  | node a k s ihk ihs =>
    match p with
    | [] =>
      rw [mapR_eq_self]
      · rfl
      · intro q a hq; simp [hq]
    | [0] =>
      simp only [updateAttrs, modifyChild, mapR]
      rw [mapR_eq_self, mapR_eq_self]
      · simp
      · intro q a hq
        cases q with
        | nil => exact absurd rfl hq
        | cons j r => simp
      · intro q a hq; simp [hq]
    | [i + 1] =>
      have h1 : updateAttrs g [i + 1] (node a k s) = node a k (updateAttrs g [i] s) := rfl
      rw [h1, ihs]
      simp only [mapR]
      rw [mapR_eq_self _ k (by intro q a hq; simp)]
      congr 1
      apply mapR_congr
      intro q hq
      cases q with
      | nil => exact absurd rfl hq
      | cons j r => simp
    | 0 :: j :: r =>
      have h1 : updateAttrs g (0 :: j :: r) (node a k s)
          = node a (updateAttrs g (j :: r) k) s := rfl
      rw [h1, ihk]
      simp only [mapR]
      rw [mapR_eq_self _ s]
      · congr 1
        apply mapR_congr
        intro q _
        simp
      · intro q b hq
        cases q with
        | nil => exact absurd rfl hq
        | cons j r => simp
    | (i + 1) :: j :: r =>
      have h1 : updateAttrs g ((i + 1) :: j :: r) (node a k s)
          = node a k (updateAttrs g (i :: j :: r) s) := rfl
      rw [h1, ihs]
      simp only [mapR]
      rw [mapR_eq_self _ k (by intro q a hq; simp)]
      congr 1
      apply mapR_congr
      intro q hq
      cases q with
      | nil => exact absurd rfl hq
      | cons j r => simp

end Dom

theorem each_eq_mapR (g : Attrs → Attrs) (sel : List Path) (hn : sel.Nodup) (d : Dom) :
    each sel g d = Dom.mapR (fun q a => if q ∈ sel then g a else a) d := by
  induction sel generalizing d with
  | nil => simp [each, Dom.mapR_id]
  | cons p ps ih =>
    have hp : p ∉ ps := (List.nodup_cons.mp hn).1
    have h1 : each (p :: ps) g d = each ps g (Dom.updateAttrs g p d) := rfl
    rw [h1, ih (List.nodup_cons.mp hn).2, Dom.updateAttrs_eq_mapR, Dom.mapR_comp]
    congr 1
    funext q a
    by_cases hq : q = p
    · subst hq; simp [hp]
    · simp [hq]

end CourseJs

namespace CourseJs
namespace Dom

theorem mem_pathsFrom (d : Dom) (pp : Path) (i : Nat) (q : Path) :
    q ∈ pathsFrom pp i d ↔
      ∃ j r, q = pp ++ (i + j) :: r ∧ (elemAt d (j :: r)).isSome = true := by
  induction d generalizing pp i with
  | nil => simp [pathsFrom]
  | node a k s ihk ihs =>
    simp only [pathsFrom, List.mem_cons, List.mem_append, ihk, ihs]
    constructor
    · rintro (h | ⟨j, r, h, hs⟩ | ⟨j, r, h, hs⟩)
      · exact ⟨0, [], by simpa using h, by simp⟩
      · exact ⟨0, j :: r, by simpa using h, by simpa using hs⟩
      · exact ⟨j + 1, r, by rw [h]; congr 2; omega, by simpa using hs⟩
    · rintro ⟨j, r, h, hs⟩
      cases j with
      | zero =>
        cases r with
        | nil => left; simpa using h
        | cons j r => right; left; exact ⟨j, r, by simpa using h, by simpa using hs⟩
      | succ j =>
        right; right
        exact ⟨j, r, by rw [h]; congr 2; omega, by simpa using hs⟩

theorem nodup_pathsFrom (d : Dom) (pp : Path) (i : Nat) : (pathsFrom pp i d).Nodup := by
  induction d generalizing pp i with
  | nil => simp [pathsFrom]
  | node a k s ihk ihs =>
    simp only [pathsFrom, List.nodup_cons, List.mem_append, not_or]
    refine ⟨⟨?_, ?_⟩, List.Nodup.append (ihk _ _) (ihs _ _) ?_⟩
    · intro h
      obtain ⟨j, r, h, _⟩ := (mem_pathsFrom _ _ _ _).mp h
      have := congrArg List.length h
      simp at this
    · intro h
      obtain ⟨j, r, h, _⟩ := (mem_pathsFrom _ _ _ _).mp h
      have h2 := List.append_cancel_left h
      simp at h2
      omega
    · intro q h1 h2
      obtain ⟨j, r, h1, _⟩ := (mem_pathsFrom _ _ _ _).mp h1
      obtain ⟨j', r', h2, _⟩ := (mem_pathsFrom _ _ _ _).mp h2
      rw [h1, List.append_assoc] at h2
      have h3 := List.append_cancel_left h2
      simp at h3
      omega

theorem mem_paths (d : Dom) (q : Path) : q ∈ d.paths ↔ (elemAt d q).isSome = true := by
  unfold paths
  rw [mem_pathsFrom]
  constructor
  · rintro ⟨j, r, h, hs⟩
    simpa [h] using hs
  · intro h
    cases q with
    | nil => simp at h
    | cons j r => exact ⟨j, r, by simp, h⟩

theorem nodup_paths (d : Dom) : d.paths.Nodup := nodup_pathsFrom d [] 0

theorem mem_paths_of_attrsAt {d : Dom} {q : Path} {a : Attrs} (h : attrsAt d q = some a) :
    q ∈ d.paths := by
  rw [mem_paths]
  unfold attrsAt at h
  cases hq : elemAt d q with
  | none => simp [hq] at h
  | some x => rfl

end Dom

theorem nodup_select (d : Dom) (sel : Selector) : (select d sel).Nodup :=
  (Dom.nodup_paths d).filter _

theorem mem_select_simple (d : Dom) (s : Simple) (q : Path) :
    q ∈ select d (.simple s) ↔ ∃ a, d.attrsAt q = some a ∧ s.test a = true := by
  unfold select
  rw [List.mem_filter]
  constructor
  · rintro ⟨_, h⟩
    simp only [Selector.matchesAt, matchesAt] at h
    cases ha : d.attrsAt q with
    | none => simp [ha] at h
    | some a => exact ⟨a, rfl, by simpa [ha] using h⟩
  · rintro ⟨a, ha, ht⟩
    exact ⟨Dom.mem_paths_of_attrsAt ha, by simp [Selector.matchesAt, matchesAt, ha, ht]⟩

/-- On a selection made with a simple selector, `each` changes exactly the
elements that match. -/
theorem each_select_simple (d : Dom) (s : Simple) (g : Attrs → Attrs) :
    each (select d (.simple s)) g d = d.map (fun a => if s.test a = true then g a else a) := by
  rw [each_eq_mapR g _ (nodup_select d _)]
  apply Dom.mapR_eq_map
  intro q a ha
  by_cases ht : s.test a = true
  · have : q ∈ select d (.simple s) := (mem_select_simple d s q).mpr ⟨a, ha, ht⟩
    simp [this, ht]
  · have : q ∉ select d (.simple s) := by
      intro hm
      obtain ⟨b, hb, hbt⟩ := (mem_select_simple d s q).mp hm
      rw [ha] at hb
      cases hb
      exact ht hbt
    simp [this, ht]

end CourseJs
namespace CourseJs
namespace Dom

/-! ## Properties of all elements -/

theorem All.imp {P Q : Attrs → Prop} (h : ∀ a, P a → Q a) {d : Dom} (hd : All P d) :
    All Q d := by
  induction d with
  | nil => trivial
  | node a k s ihk ihs => exact ⟨h a hd.1, ihk hd.2.1, ihs hd.2.2⟩

theorem all_map {P : Attrs → Prop} (f : Attrs → Attrs) (d : Dom) :
    All P (map f d) ↔ All (fun a => P (f a)) d := by
  induction d with
  | nil => simp [map, All]
  | node a k s ihk ihs => simp [map, All, ihk, ihs]

theorem all_append {P : Attrs → Prop} (d e : Dom) :
    All P (append d e) ↔ All P d ∧ All P e := by
  induction d with
  | nil => simp [append, All]
  | node a k s _ ihs => simp [append, All, ihs, and_assoc]

theorem all_stripData {P : Attrs → Prop} (d : Dom) :
    All P (stripData d) ↔ All (fun a => P a.bare) d := by
  induction d with
  | nil => simp [stripData, All]
  | node a k s ihk ihs => simp [stripData, All, ihk, ihs]

theorem all_child {P : Attrs → Prop} {d : Dom} (hd : All P d) {i : Nat} {a : Attrs} {k : Dom}
    (h : child d i = some (a, k)) : P a ∧ All P k := by
  induction d generalizing i with
  | nil => simp [child] at h
  | node b kb s _ ihs =>
    cases i with
    | zero =>
      simp only [child, Option.some.injEq, Prod.mk.injEq] at h
      obtain ⟨rfl, rfl⟩ := h
      exact ⟨hd.1, hd.2.1⟩
    | succ i => exact ihs hd.2.2 h

theorem all_elemAt {P : Attrs → Prop} {d : Dom} (hd : All P d) {p : Path} {a : Attrs} {k : Dom}
    (h : elemAt d p = some (a, k)) : P a ∧ All P k := by
  induction p generalizing d with
  | nil => simp at h
  | cons i t ih =>
    cases t with
    | nil => exact all_child hd h
    | cons j r =>
      simp only [elemAt] at h
      cases hc : child d i with
      | none => simp [hc] at h
      | some x =>
        obtain ⟨b, kb⟩ := x
        simp only [hc] at h
        exact ih (all_child hd hc).2 h

theorem all_modifyChild {P : Attrs → Prop} (f : Attrs → Dom → Attrs × Dom)
    (hf : ∀ a k, P a → All P k → P (f a k).1 ∧ All P (f a k).2) {d : Dom} (hd : All P d)
    (i : Nat) : All P (modifyChild f d i) := by
  induction d generalizing i with
  | nil => trivial
  | node a k s _ ihs =>
    cases i with
    | zero => exact ⟨(hf a k hd.1 hd.2.1).1, (hf a k hd.1 hd.2.1).2, hd.2.2⟩
    | succ i => exact ⟨hd.1, hd.2.1, ihs hd.2.2 i⟩

theorem all_appendKids {P : Attrs → Prop} {e : Dom} (he : All P e) (t : Path) {d : Dom}
    (hd : All P d) : All P (appendKids e t d) := by
  induction t generalizing d with
  | nil => exact hd
  | cons i t ih =>
    cases t with
    | nil =>
      exact all_modifyChild _ (fun a k ha hk => ⟨ha, (all_append k e).mpr ⟨hk, he⟩⟩) hd i
    | cons j r =>
      exact all_modifyChild _ (fun a k ha hk => ⟨ha, ih hk⟩) hd i

theorem append_nil (d : Dom) : append d nil = d := by
  induction d with
  | nil => rfl
  | node a k s _ ihs => simp [append, ihs]

theorem modifyChild_self (f : Attrs → Dom → Attrs × Dom) (hf : ∀ a k, f a k = (a, k))
    (d : Dom) (i : Nat) : modifyChild f d i = d := by
  induction d generalizing i with
  | nil => rfl
  | node a k s _ ihs =>
    cases i with
    | zero => simp [modifyChild, hf]
    | succ i => simp [modifyChild, ihs]

theorem appendKids_nil (t : Path) (d : Dom) : appendKids nil t d = d := by
  induction t generalizing d with
  | nil => rfl
  | cons i t ih =>
    cases t with
    | nil => exact modifyChild_self _ (fun a k => by simp [append_nil]) d i
    | cons j r => exact modifyChild_self _ (fun a k => by rw [ih]) d i

theorem map_map (f g : Attrs → Attrs) (d : Dom) : map f (map g d) = map (fun a => f (g a)) d := by
  induction d with
  | nil => rfl
  | node a k s ihk ihs => simp [map, ihk, ihs]

end Dom

theorem all_cloneAll {P : Attrs → Prop} {d : Dom}
    (hd : Dom.All (fun a => P a.bare) d) (src : List Path) :
    Dom.All P (cloneAll d src) := by
  induction src with
  | nil => trivial
  | cons p ps ih =>
    refine (Dom.all_append _ _).mpr ⟨?_, ih⟩
    unfold cloneAt
    cases h : d.elemAt p with
    | none => trivial
    | some x =>
      obtain ⟨a, k⟩ := x
      have := Dom.all_elemAt hd h
      exact (Dom.all_stripData _).mpr ⟨this.1, this.2, trivial⟩

theorem Dom.all_of_forall {P : Attrs → Prop} (h : ∀ a, P a) (d : Dom) : Dom.All P d := by
  induction d with
  | nil => trivial
  | node a k s ihk ihs => exact ⟨h a, ihk, ihs⟩

theorem Dom.all_nil (P : Attrs → Prop) : Dom.All P .nil := trivial

theorem Dom.all_node {P : Attrs → Prop} (a : Attrs) (k s : Dom) :
    Dom.All P (.node a k s) ↔ P a ∧ Dom.All P k ∧ Dom.All P s := Iff.rfl

/-! ## Class lists under the operations of the script -/

/-! From here on `Dom.All` is used through the lemmas above only. -/

attribute [irreducible] Dom.All

theorem hasClass_toggleClass_self (c : String) (a : Attrs) :
    hasClass c (toggleClass c a) = !hasClass c a := by
  unfold toggleClass hasClass
  by_cases h : a.classes.contains c = true
  · rw [if_pos h, h]
    simp
  · rw [if_neg h]
    simp only [Bool.not_eq_true] at h
    rw [h]
    simp

theorem hasClass_toggleClass_ne (c c' : String) (hne : c' ≠ c) (a : Attrs) :
    hasClass c' (toggleClass c a) = hasClass c' a := by
  unfold toggleClass hasClass
  by_cases h : a.classes.contains c = true
  · rw [if_pos h, Bool.eq_iff_iff]
    simp [List.mem_filter, hne]
  · rw [if_neg h, Bool.eq_iff_iff]
    simp [hne]

end CourseJs
/-! # The sidebar flag and the carousel handler -/

namespace CourseJs

theorem sidebarToggle_run_toggle (env : Layout) (s : Page) (n : Nat) :
    (run env s (List.replicate n Event.toggleClick)).sidebarToggle
      = (s.sidebarToggle != decide (n % 2 = 1)) := by
  induction n generalizing s with
  | zero => simp [run]
  | succ n ih =>
    have h : run env s (List.replicate (n + 1) Event.toggleClick)
        = run env (onToggleSidebar env s) (List.replicate n Event.toggleClick) := rfl
    rw [h, ih]
    have h2 : (onToggleSidebar env s).sidebarToggle = !s.sidebarToggle := rfl
    rw [h2]
    rcases Nat.mod_two_eq_zero_or_one n with h0 | h1
    · have : (n + 1) % 2 = 1 := by omega
      cases hs : s.sidebarToggle <;> simp [h0, this]
    · have : (n + 1) % 2 = 0 := by omega
      cases hs : s.sidebarToggle <;> simp [h1, this]

/-- C1: starting from page load, after `n` invocations of the click handler
of `#hideCourseSidenav` the flag `sidebarToggle` is true exactly when `n` is
odd and false exactly when `n` is even. -/
theorem toggle_flag_parity (env : Layout) (d : Dom) (n : Nat) :
    ((run env (documentReady d) (List.replicate n Event.toggleClick)).sidebarToggle = true
        ↔ n % 2 = 1) ∧
    ((run env (documentReady d) (List.replicate n Event.toggleClick)).sidebarToggle = false
        ↔ n % 2 = 0) := by
  rw [sidebarToggle_run_toggle]
  have h : (documentReady d).sidebarToggle = false := rfl
  rw [h]
  rcases Nat.mod_two_eq_zero_or_one n with h0 | h1
  · simp [h0]
  · simp [h1]

theorem closestRev_some (d : Dom) (s : Simple) (l : List Nat) (c : Path)
    (h : closestRev d s l = some c) :
    c.reverse <:+ l ∧ matchesAt d s c = true ∧
      ∀ m, m <:+ l → c.length < m.length → matchesAt d s m.reverse = false := by
  induction l with
  | nil => simp [closestRev] at h
  | cons i r ih =>
    unfold closestRev at h
    by_cases hm : matchesAt d s (i :: r).reverse = true
    · rw [if_pos hm] at h
      cases h
      refine ⟨by simp, hm, ?_⟩
      intro m hml hlt
      have := hml.length_le
      simp at hlt this
      omega
    · rw [if_neg hm] at h
      obtain ⟨h1, h2, h3⟩ := ih h
      refine ⟨h1.trans (List.suffix_cons i r), h2, ?_⟩
      intro m hml hlt
      rcases List.suffix_cons_iff.mp hml with rfl | hr
      · simpa using hm
      · exact h3 m hr hlt

theorem closest_some (d : Dom) (s : Simple) (p c : Path) (h : closest d s p = some c) :
    c <+: p ∧ matchesAt d s c = true ∧
      ∀ q, q <+: p → c.length < q.length → matchesAt d s q = false := by
  obtain ⟨h1, h2, h3⟩ := closestRev_some d s p.reverse c h
  refine ⟨List.reverse_suffix.mp h1, h2, ?_⟩
  intro q hq hlt
  have := h3 q.reverse (List.reverse_suffix.mpr hq) (by simpa using hlt)
  simpa using this

/-- C4: when the element the carousel event comes from has a nearest
`.course-carousel` ancestor-or-self `c`, the handler issues exactly one
`window.scrollTo` call, with behaviour `smooth` and with the left and top of
the position of `c`. -/
theorem carousel_scrolls_to_changed (env : Layout) (s : Page) (target c : Path)
    (h : closest s.dom (.cls "course-carousel") target = some c) :
    onCarouselChanged env s target =
        .ok { s with calls := s.calls ++
          [Call.scrollTo "smooth" (env.position s.dom c).left (env.position s.dom c).top] } ∧
      c <+: target ∧ matchesAt s.dom (.cls "course-carousel") c = true ∧
      ∀ q, q <+: target → c.length < q.length →
        matchesAt s.dom (.cls "course-carousel") q = false := by
  refine ⟨?_, closest_some _ _ _ _ h⟩
  simp [onCarouselChanged, h, positionOf]

theorem carousel_scrolls_to_changed_witness :
    closest (documentReady samplePage).dom (.cls "course-carousel") [0, 4, 0] = some [0, 4] ∧
    onCarouselChanged sampleLayout (documentReady samplePage) [0, 4, 0] =
      .ok { documentReady samplePage with calls := (documentReady samplePage).calls ++
          [Call.scrollTo "smooth" 2 7] } := by
  have h : closest (documentReady samplePage).dom (.cls "course-carousel") [0, 4, 0]
      = some [0, 4] := by decide
  refine ⟨h, ?_⟩
  have := (carousel_scrolls_to_changed sampleLayout (documentReady samplePage) [0, 4, 0] [0, 4] h).1
  rw [this]
  simp [sampleLayout]

end CourseJs
namespace CourseJs

/-! # Frame of the handlers -/

/-- C8: the carousel handler and the close-nav handler leave the flag
`sidebarToggle` as it was, whether invoked directly or through the
dispatcher, and the document-ready function leaves it at its initial value
`false`. -/
theorem sidebarToggle_frame (env : Layout) (s : Page) (target : Path) (d : Dom) :
    (dispatch env s (.carouselChanged target)).sidebarToggle = s.sidebarToggle ∧
    (match onCarouselChanged env s target with
      | .ok s1 => s1.sidebarToggle = s.sidebarToggle
      | .error _ => True) ∧
    (onCloseSideNav s).sidebarToggle = s.sidebarToggle ∧
    (dispatch env s .closeNavClick).sidebarToggle = s.sidebarToggle ∧
    (documentReady d).sidebarToggle = false := by
  refine ⟨?_, ?_, rfl, rfl, rfl⟩
  · cases h : positionOf env s.dom (closest s.dom (.cls "course-carousel") target).toList <;>
      simp [dispatch, onCarouselChanged, h]
  · cases h : positionOf env s.dom (closest s.dom (.cls "course-carousel") target).toList <;>
      simp [onCarouselChanged, h]

end CourseJs
namespace CourseJs

/-! # Preservation of class-based properties -/

theorem all_each_simple {P : Attrs → Prop} (g : Attrs → Attrs)
    (hg : ∀ a, P a → P (g a)) (x : Simple) {d : Dom} (hd : Dom.All P d) :
    Dom.All P (each (select d (.simple x)) g d) := by
  rw [each_select_simple, Dom.all_map]
  refine Dom.All.imp (fun a ha => ?_) hd
  by_cases ht : x.test a = true
  · simpa [ht] using hg a ha
  · simpa [ht] using ha

theorem all_callPlugin {P : Attrs → Prop} (hP : ∀ a b, a.classes = b.classes → P a → P b)
    (name : String) (x : Simple) (args : List String) {s : Page} (hd : Dom.All P s.dom) :
    Dom.All P (callPlugin name (.simple x) args s).dom :=
  all_each_simple (addWidget name) (fun a ha => hP a _ rfl ha) x hd

theorem all_cloneStep {P : Attrs → Prop} (hP : ∀ a b, a.classes = b.classes → P a → P b)
    {s : Page} (hd : Dom.All P s.dom) : Dom.All P (cloneStep s).dom := by
  unfold cloneStep appendTo
  simp only
  cases selectId s.dom "courseMobileSidebar" with
  | nil => exact hd
  | cons t _ =>
    have hs : Dom.All (fun a => P a.bare) s.dom :=
      Dom.All.imp
        (fun a ha => hP a a.bare rfl ha) hd
    exact Dom.all_appendKids (all_cloneAll hs _) t hd

theorem beforeClone_dom (d : Dom) :
    (beforeClone d).dom =
      (callPlugin "owlCarousel" (.simple (.cls "course-carousel")) owlOptions
        (callPlugin "dropdown" (.simple (.cls "dropdown-button")) []
          (callPlugin "material_select" (.simple (.tag "select")) []
            (callPlugin "sideNav" (.simple (.cls "button-collapse")) []
              { dom := d, sidebarToggle := false, bindings := [], calls := [] })))).dom :=
  rfl

theorem documentReady_dom (d : Dom) :
    (documentReady d).dom =
      (callPlugin "collapsible" (.simple (.cls "collapsible")) []
        (cloneStep (beforeClone d))).dom := by
  simp only [documentReady, bindOn]

theorem all_beforeClone {P : Attrs → Prop} (hP : ∀ a b, a.classes = b.classes → P a → P b)
    {d : Dom} (hd : Dom.All P d) : Dom.All P (beforeClone d).dom := by
  rw [beforeClone_dom]
  refine all_callPlugin hP "owlCarousel" (.cls "course-carousel") owlOptions ?_
  refine all_callPlugin hP "dropdown" (.cls "dropdown-button") [] ?_
  refine all_callPlugin hP "material_select" (.tag "select") [] ?_
  refine all_callPlugin hP "sideNav" (.cls "button-collapse") [] ?_
  exact hd

theorem all_documentReady {P : Attrs → Prop} (hP : ∀ a b, a.classes = b.classes → P a → P b)
    {d : Dom} (hd : Dom.All P d) : Dom.All P (documentReady d).dom := by
  rw [documentReady_dom]
  refine all_callPlugin hP "collapsible" (.cls "collapsible") [] ?_
  exact all_cloneStep hP (s := beforeClone d) (all_beforeClone hP hd)

theorem all_onCloseSideNav {P : Attrs → Prop} (hP : ∀ a b, a.classes = b.classes → P a → P b)
    {s : Page} (hd : Dom.All P s.dom) : Dom.All P (onCloseSideNav s).dom :=
  all_each_simple hideNav (fun a ha => hP a _ rfl ha) _ hd

theorem flagMatchesSidebar_dispatch (env : Layout) (s : Page) (e : Event)
    (h : flagMatchesSidebar s) : flagMatchesSidebar (dispatch env s e) := by
  cases e with
  | toggleClick =>
    unfold flagMatchesSidebar at *
    have hd : (dispatch env s .toggleClick).dom
        = each (select s.dom (.simple (.cls "course-accordion"))) (toggleClass "hide-sidenav")
            s.dom := rfl
    have hf : (dispatch env s .toggleClick).sidebarToggle = !s.sidebarToggle := rfl
    rw [hd, hf, each_select_simple, Dom.all_map]
    refine Dom.All.imp (fun a ha => ?_) h
    by_cases ht : (Simple.cls "course-accordion").test a = true
    · have hca : hasClass "course-accordion" a = true := ht
      rw [if_pos ht, hasClass_toggleClass_ne _ _ (by decide), hasClass_toggleClass_self]
      intro _
      have := ha hca
      cases hb : s.sidebarToggle <;> cases hc : hasClass "hide-sidenav" a <;> simp_all
    · have hca : ¬ hasClass "course-accordion" a = true := ht
      rw [if_neg ht]
      intro h1
      exact absurd h1 hca
  | closeNavClick =>
    exact all_onCloseSideNav (P := fun a => hasClass "course-accordion" a = true →
      (s.sidebarToggle = true ↔ hasClass "hide-sidenav" a = true))
      (fun a b hab ha => by simpa [hasClass, ← hab] using ha) h
  | carouselChanged target =>
    unfold dispatch
    cases hp : positionOf env s.dom (closest s.dom (.cls "course-carousel") target).toList <;>
      simpa [onCarouselChanged, hp, flagMatchesSidebar] using h

theorem flagMatchesSidebar_run (env : Layout) (es : List Event) (s : Page)
    (h : flagMatchesSidebar s) : flagMatchesSidebar (run env s es) := by
  induction es generalizing s with
  | nil => exact h
  | cons e es ih => exact ih _ (flagMatchesSidebar_dispatch env s e h)

/-- C5 (as stated, refuted): a page whose markup already carries
`hide-sidenav` on the sidebar is, right after page load, in a state where the
flag is false although the sidebar is in its collapsed visual state. -/
theorem flag_matches_sidebar_counterexample :
    (run sampleLayout (documentReady collapsedPage) []).sidebarToggle = false ∧
    ((run sampleLayout (documentReady collapsedPage) []).dom.attrsAt [0, 0]).map
      (hasClass "hide-sidenav") = some true ∧
    ¬ flagMatchesSidebar (run sampleLayout (documentReady collapsedPage) []) := by
  refine ⟨rfl, by decide, ?_⟩
  intro h
  have h1 : (run sampleLayout (documentReady collapsedPage) []).dom.elemAt [0, 0]
      = some (el "div" "" ["course-accordion", "hide-sidenav"], .nil) := by decide
  have h2 := (Dom.all_elemAt h h1).1
  have h3 : hasClass "course-accordion" (el "div" "" ["course-accordion", "hide-sidenav"])
      = true := by decide
  have h4 := (h2 h3).mpr (by decide)
  exact absurd h4 (by decide)

/-- C5 (amended): when the markup of the page shows the sidebar expanded (no
`.course-accordion` element carries `hide-sidenav`), then in every state
reached from page load by any sequence of handler invocations, on every
`.course-accordion` element the flag `sidebarToggle` is true exactly when the
element carries `hide-sidenav`. -/
theorem flag_matches_sidebar (env : Layout) (d : Dom) (es : List Event)
    (h : loadsExpanded d) : flagMatchesSidebar (run env (documentReady d) es) := by
  apply flagMatchesSidebar_run
  unfold flagMatchesSidebar
  have hf : (documentReady d).sidebarToggle = false := rfl
  rw [hf]
  have := all_documentReady (P := fun a => hasClass "course-accordion" a = true →
      hasClass "hide-sidenav" a = false)
    (fun a b hab ha => by simpa [hasClass, ← hab] using ha) (d := d) h
  exact Dom.All.imp (fun a ha hca => by simp [ha hca]) this

theorem flag_matches_sidebar_witness :
    loadsExpanded samplePage ∧
    flagMatchesSidebar (run sampleLayout (documentReady samplePage)
      [.toggleClick, .closeNavClick, .carouselChanged [0, 4, 0], .toggleClick, .toggleClick]) :=
  have h : loadsExpanded samplePage := by decide
  ⟨h, flag_matches_sidebar sampleLayout samplePage _ h⟩

end CourseJs
namespace CourseJs

/-! # Pages without the expected elements, and the close-nav handler -/

theorem each_nil (g : Attrs → Attrs) (d : Dom) : each [] g d = d := rfl

theorem select_descendant_subset (d : Dom) (anc x : Simple) (p : Path)
    (h : p ∈ select d (.descendant anc x)) : p ∈ select d (.simple x) := by
  unfold select at *
  rw [List.mem_filter] at *
  refine ⟨h.1, ?_⟩
  have := h.2
  simp only [Selector.matchesAt, Bool.and_eq_true] at this ⊢
  exact this.1

theorem select_descendant_nil (d : Dom) (anc x : Simple) (h : select d (.simple x) = []) :
    select d (.descendant anc x) = [] := by
  apply List.eq_nil_iff_forall_not_mem.mpr
  intro p hp
  have := select_descendant_subset d anc x p hp
  rw [h] at this
  simp at this

theorem cloneStep_dom_of_source_nil (s : Page)
    (h : select s.dom (.descendant (.cls "course-accordion") (.cls "collapsible")) = []) :
    (cloneStep s).dom = s.dom := by
  unfold cloneStep appendTo
  simp only [h, cloneAll]
  cases selectId s.dom "courseMobileSidebar" with
  | nil => rfl
  | cons t _ => exact Dom.appendKids_nil t s.dom

/-- C6: on a page with none of the elements the script looks for, running
`documentReady` leaves the document as it was and every toolkit call is
made on an empty selection; and whenever the source selection of the clone
step is empty, the clone step leaves the document as it was.  The function
is total: it returns a page and cannot throw. -/
theorem documentReady_inert (d : Dom)
    (h : ∀ x ∈ expectedSelectors, select d (.simple x) = []) :
    (documentReady d).dom = d ∧
    (documentReady d).calls =
      [Call.plugin "sideNav" [] [], Call.plugin "material_select" [] [],
       Call.plugin "dropdown" [] [], Call.plugin "owlCarousel" [] owlOptions,
       Call.plugin "collapsible" [] []] ∧
    (documentReady d).sidebarToggle = false ∧
    ∀ s : Page,
      select s.dom (.descendant (.cls "course-accordion") (.cls "collapsible")) = [] →
      (cloneStep s).dom = s.dom := by
  have h1 : select d (.simple (.cls "button-collapse")) = [] := h _ (by simp [expectedSelectors])
  have h2 : select d (.simple (.tag "select")) = [] := h _ (by simp [expectedSelectors])
  have h3 : select d (.simple (.cls "dropdown-button")) = [] := h _ (by simp [expectedSelectors])
  have h4 : select d (.simple (.cls "course-carousel")) = [] := h _ (by simp [expectedSelectors])
  have h5 : select d (.simple (.cls "collapsible")) = [] := h _ (by simp [expectedSelectors])
  have h6 := select_descendant_nil d (.cls "course-accordion") (.cls "collapsible") h5
  have e7 : (beforeClone d).dom = d := by
    simp only [beforeClone, callPlugin, bindOn, h1, h2, h3, h4, each_nil]
  have c7 : (beforeClone d).calls =
      [Call.plugin "sideNav" [] [], Call.plugin "material_select" [] [],
       Call.plugin "dropdown" [] [], Call.plugin "owlCarousel" [] owlOptions] := by
    simp only [beforeClone, callPlugin, bindOn, h1, h2, h3, h4, each_nil, List.nil_append,
      List.cons_append]
  have e8 : (cloneStep (beforeClone d)).dom = d := by
    rw [cloneStep_dom_of_source_nil _ (by rw [e7]; exact h6), e7]
  have c8 : (cloneStep (beforeClone d)).calls = (beforeClone d).calls := rfl
  refine ⟨?_, ?_, rfl, cloneStep_dom_of_source_nil⟩
  · simp only [documentReady, callPlugin, bindOn, e8, h5, each_nil]
  · simp only [documentReady, callPlugin, bindOn, e8, h5, c8, c7, List.cons_append,
      List.nil_append]

theorem documentReady_inert_witness :
    (∀ x ∈ expectedSelectors, select plainPage (.simple x) = []) ∧
    (documentReady plainPage).dom = plainPage ∧
    (cloneStep (beforeClone emptySidebarPage)).dom = (beforeClone emptySidebarPage).dom :=
  have h : ∀ x ∈ expectedSelectors, select plainPage (.simple x) = [] := by decide
  ⟨h, (documentReady_inert plainPage h).1,
   (documentReady_inert plainPage h).2.2.2 (beforeClone emptySidebarPage) (by decide)⟩

theorem test_hideNav (a : Attrs) (x : Simple) : x.test (hideNav a) = x.test a := by
  cases x <;> rfl

theorem onCloseSideNav_dom (s : Page) :
    (onCloseSideNav s).dom =
      s.dom.map (fun a => if (Simple.cls "button-collapse").test a = true then hideNav a else a) :=
  each_select_simple s.dom (.cls "button-collapse") hideNav

/-- C7: the click handler of `#closeSideNav` issues the toolkit command
`sideNav('hide')` on the selection `.button-collapse`; afterwards the panel
of every `.button-collapse` trigger is hidden, whatever it was before; and a
second invocation leaves the document, the flag and the listeners exactly as
the first one left them.  The handler is total: it cannot throw. -/
theorem closeSideNav_hides (s : Page) :
    (onCloseSideNav s).calls = s.calls ++
      [Call.plugin "sideNav" (select s.dom (.simple (.cls "button-collapse"))) ["hide"]] ∧
    Dom.All (fun a => hasClass "button-collapse" a = true → a.navOpen = false)
      (onCloseSideNav s).dom ∧
    (onCloseSideNav (onCloseSideNav s)).dom = (onCloseSideNav s).dom ∧
    (onCloseSideNav (onCloseSideNav s)).sidebarToggle = (onCloseSideNav s).sidebarToggle ∧
    (onCloseSideNav (onCloseSideNav s)).bindings = (onCloseSideNav s).bindings := by
  refine ⟨rfl, ?_, ?_, rfl, rfl⟩
  · rw [onCloseSideNav_dom, Dom.all_map]
    apply Dom.all_of_forall
    intro a
    by_cases ht : (Simple.cls "button-collapse").test a = true
    · simp [ht, hideNav]
    · have : hasClass "button-collapse" a = false := by simpa [hasClass, Simple.test] using ht
      simp [ht, this]
  · rw [onCloseSideNav_dom (onCloseSideNav s), onCloseSideNav_dom s, Dom.map_map]
    congr 1
    funext a
    by_cases ht : (Simple.cls "button-collapse").test a = true
    · simp [ht, test_hideNav, hideNav]
    · simp [ht]

end CourseJs
namespace CourseJs

/-! # Maps that keep the markup -/

namespace Dom

theorem child_map (f : Attrs → Attrs) (d : Dom) (i : Nat) :
    child (map f d) i = (child d i).map (fun ak => (f ak.1, map f ak.2)) := by
  induction d generalizing i with
  | nil => rfl
  | node a k s _ ihs =>
    cases i with
    | zero => rfl
    | succ i => exact ihs i

theorem elemAt_map (f : Attrs → Attrs) (d : Dom) (p : Path) :
    elemAt (map f d) p = (elemAt d p).map (fun ak => (f ak.1, map f ak.2)) := by
  induction p generalizing d with
  | nil => simp
  | cons i t ih =>
    cases t with
    | nil => exact child_map f d i
    | cons j r =>
      simp only [elemAt, child_map]
      cases child d i with
      | none => rfl
      | some x => exact ih x.2

theorem attrsAt_map (f : Attrs → Attrs) (d : Dom) (p : Path) :
    attrsAt (map f d) p = (attrsAt d p).map f := by
  unfold attrsAt
  rw [elemAt_map]
  cases elemAt d p <;> rfl

theorem pathsFrom_map (f : Attrs → Attrs) (d : Dom) (pp : Path) (i : Nat) :
    pathsFrom pp i (map f d) = pathsFrom pp i d := by
  induction d generalizing pp i with
  | nil => rfl
  | node a k s ihk ihs => simp [map, pathsFrom, ihk, ihs]

theorem count_map (f : Attrs → Attrs) (d : Dom) : count (map f d) = count d := by
  induction d with
  | nil => rfl
  | node a k s _ ihs => simp [map, count, ihs]

theorem stripData_map (f : Attrs → Attrs) (hf : ∀ a, (f a).bare = a.bare) (d : Dom) :
    stripData (map f d) = stripData d := by
  induction d with
  | nil => rfl
  | node a k s ihk ihs => simp [map, stripData, ihk, ihs, hf]

theorem kidCount_map (f : Attrs → Attrs) (d : Dom) (p : Path) :
    kidCount (map f d) p = kidCount d p := by
  unfold kidCount
  rw [elemAt_map]
  cases elemAt d p with
  | none => rfl
  | some x => exact count_map f x.2

end Dom

theorem matchesAt_map (f : Attrs → Attrs) (hf : ∀ x a, Simple.test x (f a) = Simple.test x a)
    (d : Dom) (x : Simple) (p : Path) : matchesAt (d.map f) x p = matchesAt d x p := by
  unfold matchesAt
  rw [Dom.attrsAt_map]
  cases d.attrsAt p with
  | none => rfl
  | some a => exact hf x a

theorem closestRev_map (f : Attrs → Attrs) (hf : ∀ x a, Simple.test x (f a) = Simple.test x a)
    (d : Dom) (x : Simple) (l : List Nat) : closestRev (d.map f) x l = closestRev d x l := by
  induction l with
  | nil => rfl
  | cons i r ih => simp only [closestRev, matchesAt_map f hf, ih]

theorem select_map (f : Attrs → Attrs) (hf : ∀ x a, Simple.test x (f a) = Simple.test x a)
    (d : Dom) (sel : Selector) : select (d.map f) sel = select d sel := by
  unfold select Dom.paths
  rw [Dom.pathsFrom_map]
  congr 1
  funext p
  cases sel with
  | simple x => exact matchesAt_map f hf d x p
  | descendant anc x =>
    simp only [Selector.matchesAt, closest, matchesAt_map f hf, closestRev_map f hf]

theorem selectId_map (f : Attrs → Attrs) (hf : ∀ x a, Simple.test x (f a) = Simple.test x a)
    (d : Dom) (i : String) : selectId (d.map f) i = selectId d i := by
  unfold selectId
  rw [select_map f hf]

theorem cloneAll_map (f : Attrs → Attrs) (hf : ∀ a, (f a).bare = a.bare) (d : Dom)
    (src : List Path) : cloneAll (d.map f) src = cloneAll d src := by
  induction src with
  | nil => rfl
  | cons p ps ih =>
    simp only [cloneAll, ih]
    congr 1
    unfold cloneAt
    rw [Dom.elemAt_map]
    cases d.elemAt p with
    | none => rfl
    | some x => simp [Dom.stripData, hf, Dom.stripData_map f hf]

theorem beforeClone_dom_eq_map (d : Dom) : (beforeClone d).dom = d.map widgetSetup := by
  rw [beforeClone_dom]
  simp only [callPlugin, each_select_simple, Dom.map_map]
  rfl

theorem test_addWidget (n : String) (x : Simple) (a : Attrs) :
    x.test (addWidget n a) = x.test a := by
  cases x <;> rfl

theorem test_widgetSetup (x : Simple) (a : Attrs) : x.test (widgetSetup a) = x.test a := by
  unfold widgetSetup
  simp only
  split_ifs <;> simp only [test_addWidget]

theorem bare_widgetSetup (a : Attrs) : (widgetSetup a).bare = a.bare := by
  unfold widgetSetup
  simp only
  split_ifs <;> rfl

end CourseJs
namespace CourseJs
namespace Dom

/-! # Appending children -/

theorem child_modifyChild (f : Attrs → Dom → Attrs × Dom) (d : Dom) (i j : Nat) :
    child (modifyChild f d i) j =
      if j = i then (child d j).map (fun ak => f ak.1 ak.2) else child d j := by
  induction d generalizing i j with
  | nil => simp [modifyChild, child]
  | node a k s _ ihs =>
    cases i with
    | zero =>
      cases j with
      | zero => simp [modifyChild, child]
      | succ j => simp [modifyChild, child]
    | succ i =>
      cases j with
      | zero => simp [modifyChild, child]
      | succ j => simp [modifyChild, child, ihs]

theorem child_append_left (d e : Dom) (i : Nat) (h : i < count d) :
    child (append d e) i = child d i := by
  induction d generalizing i with
  | nil => simp [count] at h
  | node a k s _ ihs =>
    cases i with
    | zero => rfl
    | succ i => exact ihs i (by simpa [count] using h)

theorem child_append_right (d e : Dom) (j : Nat) :
    child (append d e) (count d + j) = child e j := by
  induction d with
  | nil => simp [append, count]
  | node a k s _ ihs =>
    have : count (node a k s) + j = (count s + j) + 1 := by simp [count]; omega
    rw [this]
    exact ihs

theorem child_lt_count {d : Dom} {i : Nat} {x : Attrs × Dom} (h : child d i = some x) :
    i < count d := by
  induction d generalizing i with
  | nil => simp [child] at h
  | node a k s _ ihs =>
    cases i with
    | zero => simp [count]
    | succ i => have := ihs h; simp [count]; omega

theorem elemAt_append_left (d e : Dom) (p : Path) (x : Attrs × Dom)
    (h : elemAt d p = some x) : ∃ k, elemAt (append d e) p = some (x.1, k) := by
  cases p with
  | nil => simp at h
  | cons i t =>
    cases t with
    | nil =>
      have hi := child_lt_count h
      exact ⟨x.2, by simp only [elemAt]; rw [child_append_left _ _ _ hi]; exact h⟩
    | cons j r =>
      simp only [elemAt] at h ⊢
      cases hc : child d i with
      | none => simp [hc] at h
      | some y =>
        rw [child_append_left _ _ _ (child_lt_count hc), hc]
        simp only [hc] at h
        exact ⟨x.2, h⟩

theorem elemAt_append_right (d e : Dom) (j : Nat) (r : Path) :
    elemAt (append d e) ((count d + j) :: r) = elemAt e (j :: r) := by
  cases r with
  | nil => exact child_append_right d e j
  | cons j2 r2 => simp only [elemAt, child_append_right]

/-- Elements of the document keep their place and their attributes when
children are appended somewhere. -/
theorem attrsAt_appendKids (e : Dom) (t : Path) (d : Dom) (p : Path) (a : Attrs)
    (h : attrsAt d p = some a) : attrsAt (appendKids e t d) p = some a := by
  induction t generalizing d p with
  | nil => exact h
  | cons i t ih =>
    cases p with
    | nil => simp at h
    | cons i2 p2 =>
      cases t with
      | nil =>
        simp only [appendKids]
        cases p2 with
        | nil =>
          simp only [attrsAt, elemAt, child_modifyChild] at h ⊢
          split_ifs with hi
          · cases hc : child d i2 with
            | none => simp [hc] at h
            | some y => simpa [hc] using h
          · exact h
        | cons j r =>
          simp only [attrsAt, elemAt, child_modifyChild] at h ⊢
          split_ifs with hi
          · cases hc : child d i2 with
            | none => simp [hc] at h
            | some y =>
              simp only [hc, Option.map_some'] at h ⊢
              cases hx : elemAt y.2 (j :: r) with
              | none => simp [hx] at h
              | some x =>
                obtain ⟨k, hk⟩ := elemAt_append_left y.2 e (j :: r) x hx
                simp only [hx, Option.map_some', Option.some.injEq] at h
                simp [hk, h]
          · exact h
      | cons j0 t0 =>
        simp only [appendKids]
        cases p2 with
        | nil =>
          simp only [attrsAt, elemAt, child_modifyChild] at h ⊢
          split_ifs with hi
          · cases hc : child d i2 with
            | none => simp [hc] at h
            | some y => simpa [hc] using h
          · exact h
        | cons j r =>
          simp only [attrsAt, elemAt, child_modifyChild] at h ⊢
          split_ifs with hi
          · cases hc : child d i2 with
            | none => simp [hc] at h
            | some y =>
              simp only [hc, Option.map_some'] at h ⊢
              exact ih y.2 (j :: r) h
          · exact h

/-- The appended elements sit after the former children of the target. -/
theorem elemAt_appendKids_new (e : Dom) (t : Path) (d : Dom) (a : Attrs) (kids : Dom)
    (h : elemAt d t = some (a, kids)) (j : Nat) (r : Path) :
    elemAt (appendKids e t d) (t ++ (count kids + j) :: r) = elemAt e (j :: r) := by
  induction t generalizing d with
  | nil => simp at h
  | cons i t ih =>
    cases t with
    | nil =>
      simp only [elemAt] at h
      simp only [appendKids, List.singleton_append, elemAt, child_modifyChild, if_true, h,
        Option.map_some']
      exact elemAt_append_right kids e j r
    | cons j0 t0 =>
      simp only [elemAt] at h
      cases hc : child d i with
      | none => simp [hc] at h
      | some y =>
        simp only [hc] at h
        have := ih y.2 h
        simp only [appendKids, List.cons_append, elemAt, child_modifyChild, if_true, hc,
          Option.map_some']
        simpa using this

end Dom
end CourseJs
namespace CourseJs

/-! # The clone step and the collapsible set-up -/

theorem child_cloneAll (d : Dom) (src : List Path)
    (hv : ∀ p ∈ src, (d.elemAt p).isSome = true) (i : Nat) (p : Path)
    (hp : src[i]? = some p) :
    Dom.child (cloneAll d src) i = (d.elemAt p).map (fun ak => (ak.1.bare, ak.2.stripData)) := by
  induction src generalizing i with
  | nil => simp at hp
  | cons q qs ih =>
    have hq := hv q (by simp)
    cases hx : d.elemAt q with
    | none => simp [hx] at hq
    | some x =>
      have hc : cloneAll d (q :: qs)
          = .node x.1.bare x.2.stripData (cloneAll d qs) := by
        simp [cloneAll, cloneAt, hx, Dom.stripData, Dom.append]
      rw [hc]
      cases i with
      | zero =>
        simp only [List.getElem?_cons_zero, Option.some.injEq] at hp
        subst hp
        simp [Dom.child, hx]
      | succ i =>
        simp only [List.getElem?_cons_succ] at hp
        exact ih (fun p hp => hv p (by simp [hp])) i hp

theorem elemAt_isSome_of_mem_select {d : Dom} {sel : Selector} {p : Path}
    (h : p ∈ select d sel) : (d.elemAt p).isSome = true := by
  unfold select at h
  exact (Dom.mem_paths d p).mp (List.mem_filter.mp h).1

theorem afterClone_eq (d : Dom) :
    afterClone d =
      appendTo (cloneAll d (cloneSources d)) (selectId d "courseMobileSidebar")
        (d.map widgetSetup) := by
  unfold afterClone cloneStep
  simp only
  rw [beforeClone_dom_eq_map, select_map widgetSetup test_widgetSetup,
    selectId_map widgetSetup test_widgetSetup, cloneAll_map widgetSetup bare_widgetSetup]
  rfl

theorem documentReady_calls (d : Dom) :
    (documentReady d).calls =
      (beforeClone d).calls ++ [Call.plugin "collapsible" (collapsibleTargets d) []] := by
  simp only [documentReady, bindOn, callPlugin, cloneStep, collapsibleTargets, afterClone]

theorem hasClass_bare (c : String) (a : Attrs) : hasClass c a.bare = hasClass c a := rfl

/-- C10: on a page with a `#courseMobileSidebar` container `t`, the call
`collapsible()` of line 38 is made on a selection that contains every
original `.collapsible` inside `.course-accordion` (still at its place, with
its markup) and every copy appended to the container (the `i`-th copy is the
child number `kidCount + i` of the container and is a deep copy of the markup
of the `i`-th original); every element carrying `collapsible` after the
clone step is in that selection, and in the final document each of them has
the widget set up. -/
theorem collapsible_covers_copies (d : Dom) (t : Path)
    (ht : selectId d "courseMobileSidebar" = [t]) :
    Call.plugin "collapsible" (collapsibleTargets d) [] ∈ (documentReady d).calls ∧
    (∀ p ∈ cloneSources d, ∃ a, d.attrsAt p = some a ∧ hasClass "collapsible" a = true ∧
      (afterClone d).attrsAt p = some (widgetSetup a) ∧ p ∈ collapsibleTargets d) ∧
    (∀ i p, (cloneSources d)[i]? = some p → ∃ a k, d.elemAt p = some (a, k) ∧
      (afterClone d).elemAt (t ++ [d.kidCount t + i]) = some (a.bare, k.stripData) ∧
      t ++ [d.kidCount t + i] ∈ collapsibleTargets d) ∧
    (∀ p a, (afterClone d).attrsAt p = some a → hasClass "collapsible" a = true →
      p ∈ collapsibleTargets d) ∧
    Dom.All (fun a => hasClass "collapsible" a = true → "collapsible" ∈ a.widgets)
      (documentReady d).dom := by
  have hpost : afterClone d
      = Dom.appendKids (cloneAll d (cloneSources d)) t (d.map widgetSetup) := by
    rw [afterClone_eq, ht]
    rfl
  have hsrc : ∀ p ∈ cloneSources d, ∃ a, d.attrsAt p = some a ∧
      hasClass "collapsible" a = true := by
    intro p hp
    obtain ⟨a, ha, hta⟩ := (mem_select_simple d _ p).mp
      (select_descendant_subset d _ _ p hp)
    exact ⟨a, ha, hta⟩
  have hmem : ∀ p a, (afterClone d).attrsAt p = some a → hasClass "collapsible" a = true →
      p ∈ collapsibleTargets d := by
    intro p a ha hc
    exact (mem_select_simple _ _ p).mpr ⟨a, ha, hc⟩
  refine ⟨?_, ?_, ?_, hmem, ?_⟩
  · rw [documentReady_calls]
    simp
  · intro p hp
    obtain ⟨a, ha, hc⟩ := hsrc p hp
    have h1 : (d.map widgetSetup).attrsAt p = some (widgetSetup a) := by
      rw [Dom.attrsAt_map, ha]
      rfl
    have h2 : (afterClone d).attrsAt p = some (widgetSetup a) := by
      rw [hpost]
      exact Dom.attrsAt_appendKids _ t _ p _ h1
    have h3 : hasClass "collapsible" (widgetSetup a) = true := by
      have := test_widgetSetup (.cls "collapsible") a
      exact this.trans hc
    exact ⟨a, ha, hc, h2, hmem p _ h2 h3⟩
  · intro i p hp
    have hpm : p ∈ cloneSources d := List.getElem?_mem hp
    have hv : ∀ q ∈ cloneSources d, (d.elemAt q).isSome = true :=
      fun q hq => elemAt_isSome_of_mem_select hq
    have htm : t ∈ select d (.simple (.ident "courseMobileSidebar")) := by
      have : t ∈ selectId d "courseMobileSidebar" := by rw [ht]; simp
      exact List.mem_of_mem_take this
    have htv := elemAt_isSome_of_mem_select htm
    cases hte : d.elemAt t with
    | none => simp [hte] at htv
    | some y =>
      have hpv := hv p hpm
      cases hpe : d.elemAt p with
      | none => simp [hpe] at hpv
      | some x =>
        have hkc : d.kidCount t = Dom.count (Dom.map widgetSetup y.2) := by
          simp [Dom.kidCount, hte, Dom.count_map]
        have h1 : (d.map widgetSetup).elemAt t
            = some (widgetSetup y.1, Dom.map widgetSetup y.2) := by
          rw [Dom.elemAt_map, hte]
          rfl
        have h2 : (afterClone d).elemAt (t ++ [d.kidCount t + i])
            = some (x.1.bare, x.2.stripData) := by
          rw [hpost, hkc, Dom.elemAt_appendKids_new _ t _ _ _ h1 i []]
          have := child_cloneAll d (cloneSources d) hv i p hp
          simp only [Dom.elemAt]
          rw [this, hpe]
          rfl
        refine ⟨x.1, x.2, rfl, h2, ?_⟩
        obtain ⟨a, ha, hc⟩ := hsrc p hpm
        have hax : a = x.1 := by
          simp only [Dom.attrsAt, hpe, Option.map_some', Option.some.injEq] at ha
          exact ha.symm
        apply hmem _ x.1.bare
        · simp [Dom.attrsAt, h2]
        · rw [hasClass_bare, ← hax]
          exact hc
  · rw [documentReady_dom, callPlugin]
    simp only
    rw [each_select_simple, Dom.all_map]
    apply Dom.all_of_forall
    intro a
    by_cases hc : (Simple.cls "collapsible").test a = true
    · simp [hc, addWidget]
    · have : hasClass "collapsible" a = false := by simpa [hasClass, Simple.test] using hc
      simp [hc, this]

theorem collapsible_covers_copies_witness :
    selectId samplePage "courseMobileSidebar" = [[0, 3]] ∧
    cloneSources samplePage = [[0, 1, 0]] ∧
    [0, 1, 0] ∈ collapsibleTargets samplePage ∧
    [0, 3, 0] ∈ collapsibleTargets samplePage :=
  have h : selectId samplePage "courseMobileSidebar" = [[0, 3]] := by decide
  have hs : cloneSources samplePage = [[0, 1, 0]] := by decide
  have hc := collapsible_covers_copies samplePage [0, 3] h
  ⟨h, hs,
   (hc.2.1 [0, 1, 0] (by rw [hs]; simp)).choose_spec.2.2.2,
   by
    obtain ⟨a, k, _, _, hm⟩ := hc.2.2.1 0 [0, 1, 0] (by rw [hs]; rfl)
    have hk : samplePage.kidCount [0, 3] = 0 := by decide
    simpa [hk] using hm⟩

end CourseJs
namespace CourseJs

/-! # Decimal digits and pixel lengths -/

theorem digitChar_isDigit (m : Nat) (h : m < 10) :
    (Nat.digitChar m).isDigit = true ∧ (Nat.digitChar m).toNat - 48 = m := by
  interval_cases m <;> exact ⟨by decide, by decide⟩

theorem toDigitsCore_spec (fuel n : Nat) (ds : List Char) (h : n < fuel) :
    ∃ l : List Char, Nat.toDigitsCore 10 fuel n ds = l ++ ds ∧ l ≠ [] ∧
      (∀ c ∈ l, c.isDigit = true) ∧
      l.foldl (fun a c => a * 10 + (c.toNat - 48)) 0 = n := by
  induction fuel generalizing n ds with
  | zero => omega
  | succ fuel ih =>
    unfold Nat.toDigitsCore
    simp only
    have hd := digitChar_isDigit (n % 10) (Nat.mod_lt _ (by decide))
    by_cases h0 : n / 10 = 0
    · rw [if_pos h0]
      refine ⟨[Nat.digitChar (n % 10)], rfl, by simp, by simpa using hd.1, ?_⟩
      simp only [List.foldl_cons, List.foldl_nil, hd.2]
      omega
    · rw [if_neg h0]
      have hlt : n / 10 < fuel := by omega
      obtain ⟨l, hl, _, hdig, hval⟩ := ih (n / 10) (Nat.digitChar (n % 10) :: ds) hlt
      refine ⟨l ++ [Nat.digitChar (n % 10)], by simp [hl], by simp, ?_, ?_⟩
      · intro c hc
        rcases List.mem_append.mp hc with hc | hc
        · exact hdig c hc
        · simp only [List.mem_singleton] at hc
          rw [hc]
          exact hd.1
      · rw [List.foldl_append, hval]
        simp only [List.foldl_cons, List.foldl_nil, hd.2]
        omega

theorem toString_data_spec (n : Nat) :
    ∃ l : List Char, (toString n).data = l ∧ l ≠ [] ∧ (∀ c ∈ l, c.isDigit = true) ∧
      l.foldl (fun a c => a * 10 + (c.toNat - 48)) 0 = n := by
  obtain ⟨l, hl, hne, hdig, hval⟩ := toDigitsCore_spec (n + 1) n [] (by omega)
  refine ⟨l, ?_, hne, hdig, hval⟩
  have : (toString n).data = Nat.toDigitsCore 10 (n + 1) n [] := rfl
  rw [this, hl]
  simp

theorem readDigits_append (l rest : List Char) (hdig : ∀ c ∈ l, c.isDigit = true)
    (hrest : ∀ c r, rest = c :: r → c.isDigit = false) (acc cnt : Nat) :
    readDigits acc cnt (l ++ rest) =
      (l.foldl (fun a c => a * 10 + (c.toNat - 48)) acc, cnt + l.length, rest) := by
  induction l generalizing acc cnt with
  | nil =>
    cases rest with
    | nil => rfl
    | cons c r => simp [readDigits, hrest c r rfl]
  | cons c l ih =>
    have hc := hdig c (by simp)
    have e : (c :: l) ++ rest = c :: (l ++ rest) := rfl
    rw [e]
    simp only [readDigits, hc, if_true, List.foldl_cons, List.length_cons]
    rw [ih (fun c hc => hdig c (by simp [hc]))]
    congr 2
    omega

theorem pxMagnitude_whole (n : Nat) :
    pxMagnitude ((toString n).data ++ ['p', 'x']) = some (n : ℚ) := by
  obtain ⟨l, hl, hne, hdig, hval⟩ := toString_data_spec n
  have hr := readDigits_append l ['p', 'x'] hdig
    (by intro c r h; cases h; decide) 0 0
  unfold pxMagnitude
  simp only [hl, hr, hval]
  have hlen : 0 + l.length ≠ 0 := by
    cases l with
    | nil => exact absurd rfl hne
    | cons a b => simp
  simp [hne]

theorem toString_head_ne_minus (n : Nat) (rest : List Char) :
    ∃ c r, (toString n).data ++ rest = c :: r ∧ c ≠ '-' := by
  obtain ⟨l, hl, hne, hdig, _⟩ := toString_data_spec n
  cases l with
  | nil => exact absurd rfl hne
  | cons c r =>
    refine ⟨c, r ++ rest, by simp [hl], ?_⟩
    intro h
    have := hdig c (by simp)
    rw [h] at this
    exact absurd this (by decide)

theorem pxValue_plain (n : Nat) (tail : List Char)
    (v : ℚ) (h : pxMagnitude ((toString n).data ++ tail) = some v) (s : String)
    (hs : s.data = (toString n).data ++ tail) : pxValue s = some v := by
  obtain ⟨c, r, hcr, hne⟩ := toString_head_ne_minus n tail
  unfold pxValue
  rw [hs, hcr]
  rw [hcr] at h
  split
  · rename_i cs heq
    simp only [List.cons.injEq] at heq
    exact absurd heq.1.symm (fun h => hne h.symm)
  · exact h

theorem fracChars_spec (k f : Nat) :
    (∀ c ∈ JsNum.fracChars k f, c.isDigit = true) ∧ (JsNum.fracChars k f).length = k ∧
      ∀ acc, (JsNum.fracChars k f).foldl (fun a c => a * 10 + (c.toNat - 48)) acc
        = acc * 10 ^ k + f % 10 ^ k := by
  induction k with
  | zero => simp [JsNum.fracChars, Nat.mod_one]
  | succ k ih =>
    obtain ⟨h1, h2, h3⟩ := ih
    have hd := digitChar_isDigit (f / 10 ^ k % 10) (Nat.mod_lt _ (by decide))
    refine ⟨?_, by simp [JsNum.fracChars, h2], ?_⟩
    · intro c hc
      simp only [JsNum.fracChars, List.mem_cons] at hc
      rcases hc with hc | hc
      · rw [hc]; exact hd.1
      · exact h1 c hc
    · intro acc
      simp only [JsNum.fracChars, List.foldl_cons, h3, hd.2]
      rw [Nat.mod_pow_succ]
      ring

theorem pxMagnitude_frac (n k f : Nat) :
    pxMagnitude ((toString n).data ++ '.' :: (JsNum.fracChars (k + 1) f ++ ['p', 'x']))
      = some ((n : ℚ) + ((f % 10 ^ (k + 1) : Nat) : ℚ) / 10 ^ (k + 1)) := by
  obtain ⟨l, hl, hne, hdig, hval⟩ := toString_data_spec n
  obtain ⟨h1, h2, h3⟩ := fracChars_spec (k + 1) f
  have hr := readDigits_append l ('.' :: (JsNum.fracChars (k + 1) f ++ ['p', 'x'])) hdig
    (by intro c r h; cases h; decide) 0 0
  have hr2 := readDigits_append (JsNum.fracChars (k + 1) f) ['p', 'x'] h1
    (by intro c r h; cases h; decide) 0 0
  unfold pxMagnitude
  simp only [hl, hr, hval, hr2, h2, h3]
  simp [hne]

theorem JsNum.value_trim (m k : Nat) : (JsNum.trim m k).value = (m : ℚ) / 10 ^ k := by
  induction k generalizing m with
  | zero => simp [JsNum.trim, JsNum.value]
  | succ k ih =>
    unfold JsNum.trim
    by_cases h : m % 10 = 0
    · rw [if_pos h, ih]
      have hm : m = 10 * (m / 10) := by omega
      have hq : (m : ℚ) = 10 * ((m / 10 : Nat) : ℚ) := by exact_mod_cast hm
      rw [hq, pow_succ]
      field_simp
      ring
    · rw [if_neg h]
      rfl

theorem JsNum.value_half (x : JsNum) : x.half.value = x.value / 2 := by
  unfold JsNum.half JsNum.value
  simp only [pow_succ]
  push_cast
  field_simp
  ring

theorem JsNum.value_nonneg (x : JsNum) : 0 ≤ x.value := by
  unfold JsNum.value
  positivity

/-- The text of a number starts with the digits of a whole number and reads
back, followed by `px`, as the number itself. -/
theorem JsNum.text_spec (x : JsNum) :
    ∃ (n : Nat) (tail : List Char), (x.text ++ "px").data = (toString n).data ++ tail ∧
      pxMagnitude ((toString n).data ++ tail) = some x.value := by
  have hv : (JsNum.trim x.mant x.scale).value = x.value := JsNum.value_trim x.mant x.scale
  unfold JsNum.text
  simp only
  cases hk : (JsNum.trim x.mant x.scale).scale with
  | zero =>
    refine ⟨(JsNum.trim x.mant x.scale).mant, ['p', 'x'], by simp [String.data_append], ?_⟩
    rw [pxMagnitude_whole, ← hv]
    simp [JsNum.value, hk]
  | succ k =>
    refine ⟨(JsNum.trim x.mant x.scale).mant / 10 ^ (k + 1),
      '.' :: (JsNum.fracChars (k + 1) ((JsNum.trim x.mant x.scale).mant % 10 ^ (k + 1))
        ++ ['p', 'x']), by simp [String.data_append], ?_⟩
    rw [pxMagnitude_frac, ← hv]
    simp only [JsNum.value, hk, Nat.mod_mod]
    have hm := Nat.div_add_mod (JsNum.trim x.mant x.scale).mant (10 ^ (k + 1))
    have hq : (((JsNum.trim x.mant x.scale).mant : Nat) : ℚ)
        = (10 ^ (k + 1) : ℚ) * (((JsNum.trim x.mant x.scale).mant / 10 ^ (k + 1) : Nat) : ℚ)
          + (((JsNum.trim x.mant x.scale).mant % 10 ^ (k + 1) : Nat) : ℚ) := by
      exact_mod_cast hm.symm
    congr 1
    rw [eq_div_iff (by positivity)]
    rw [add_mul, div_mul_cancel₀ _ (by positivity)]
    linarith

theorem pxValue_text (x : JsNum) : pxValue (x.text ++ "px") = some x.value := by
  obtain ⟨n, tail, hd, hm⟩ := JsNum.text_spec x
  exact pxValue_plain n tail _ hm _ hd

theorem pxValue_minus_text (x : JsNum) :
    pxValue ("-" ++ x.text ++ "px") = some (-x.value) := by
  obtain ⟨n, tail, hd, hm⟩ := JsNum.text_spec x
  have hd2 : ("-" ++ x.text ++ "px").data = '-' :: ((toString n).data ++ tail) := by
    have : ("-" ++ x.text ++ "px").data = '-' :: (x.text ++ "px").data := by
      simp [String.data_append]
    rw [this, hd]
  unfold pxValue
  rw [hd2]
  simp only [hm, Option.map_some']

end CourseJs
namespace CourseJs

/-! # The margin targets of the toggle handler -/

theorem onToggleSidebar_calls (env : Layout) (s : Page) :
    (onToggleSidebar env s).calls = s.calls ++
      [ Call.animate (select (onToggleSidebar env s).dom (.simple (.cls "course-card")))
          "margin-left"
          (halfToString (if (!s.sidebarToggle) = true then
            widthOf env s.dom (select s.dom (.simple (.cls "course-accordion")))
            else some (JsNum.ofNat 0)) ++ "px") 300,
        Call.animate (select (onToggleSidebar env s).dom (.simple (.cls "course-accordion")))
          "margin-left"
          ("-" ++ numToString (if (!s.sidebarToggle) = true then
            widthOf env s.dom (select s.dom (.simple (.cls "course-accordion")))
            else some (JsNum.ofNat 0)) ++ "px") 300 ] :=
  rfl

/-- C2: let `w` be the width of the sidebar, whole or fractional, read from
the document as it is when the click arrives, before `hide-sidenav` is
toggled.  The handler issues two `animate` calls, the second on
`.course-accordion`.  When the click hides the sidebar, the `margin-left`
target of that call is the text `-` `w` `px`, which denotes the length `-w`;
when the click expands the sidebar, the target denotes the length 0. -/
theorem sidebar_margin_target (env : Layout) (s : Page) (w : JsNum)
    (hw : widthOf env s.dom (select s.dom (.simple (.cls "course-accordion"))) = some w) :
    ∃ cardV sideV,
      (onToggleSidebar env s).calls = s.calls ++
        [ Call.animate (select (onToggleSidebar env s).dom (.simple (.cls "course-card")))
            "margin-left" cardV 300,
          Call.animate (select (onToggleSidebar env s).dom (.simple (.cls "course-accordion")))
            "margin-left" sideV 300 ] ∧
      (s.sidebarToggle = false →
        (onToggleSidebar env s).sidebarToggle = true ∧
        sideV = "-" ++ w.text ++ "px" ∧ pxValue sideV = some (-w.value)) ∧
      (s.sidebarToggle = true →
        (onToggleSidebar env s).sidebarToggle = false ∧ pxValue sideV = some 0) := by
  refine ⟨_, _, onToggleSidebar_calls env s, ?_, ?_⟩
  · intro hf
    refine ⟨by simp [onToggleSidebar, hf], ?_, ?_⟩
    · simp [hf, hw, numToString]
    · simp only [hf, hw, numToString, Bool.not_false, if_true]
      exact pxValue_minus_text w
  · intro hf
    refine ⟨by simp [onToggleSidebar, hf], ?_⟩
    simp only [hf, Bool.not_true, Bool.false_eq_true, if_false, numToString]
    decide

theorem sidebar_margin_target_witness :
    widthOf fractionalLayout (documentReady samplePage).dom
      (select (documentReady samplePage).dom (.simple (.cls "course-accordion")))
      = some ⟨2775, 1⟩ ∧
    ∃ cardV sideV,
      (onToggleSidebar fractionalLayout (documentReady samplePage)).calls =
        (documentReady samplePage).calls ++
        [ Call.animate [[0, 2]] "margin-left" cardV 300,
          Call.animate [[0, 1]] "margin-left" sideV 300 ] ∧
      sideV = "-277.5px" ∧ pxValue sideV = some (-(555 / 2)) := by
  have hw : widthOf fractionalLayout (documentReady samplePage).dom
      (select (documentReady samplePage).dom (.simple (.cls "course-accordion")))
      = some ⟨2775, 1⟩ := by decide
  obtain ⟨cardV, sideV, hc, hh, _⟩ :=
    sidebar_margin_target fractionalLayout (documentReady samplePage) ⟨2775, 1⟩ hw
  have h1 : select (onToggleSidebar fractionalLayout (documentReady samplePage)).dom
      (.simple (.cls "course-card")) = [[0, 2]] := by decide
  have h2 : select (onToggleSidebar fractionalLayout (documentReady samplePage)).dom
      (.simple (.cls "course-accordion")) = [[0, 1]] := by decide
  rw [h1, h2] at hc
  obtain ⟨_, hs, hv⟩ := hh rfl
  refine ⟨hw, cardV, sideV, hc, ?_, ?_⟩
  · rw [hs]; decide
  · rw [hv]; norm_num [JsNum.value]

/-- C3 (as stated, refuted): with a sidebar of width 0 the click that hides
the sidebar passes the card the target `0px`, which denotes 0 and is not
positive. -/
theorem card_margin_target_counterexample :
    (documentReady samplePage).sidebarToggle = false ∧
    widthOf zeroLayout (documentReady samplePage).dom
      (select (documentReady samplePage).dom (.simple (.cls "course-accordion")))
      = some ⟨0, 0⟩ ∧
    (onToggleSidebar zeroLayout (documentReady samplePage)).sidebarToggle = true ∧
    (onToggleSidebar zeroLayout (documentReady samplePage)).calls =
      (documentReady samplePage).calls ++
      [ Call.animate [[0, 2]] "margin-left" "0px" 300,
        Call.animate [[0, 1]] "margin-left" "-0px" 300 ] ∧
    pxValue "0px" = some 0 ∧
    ¬ ∃ v : ℚ, pxValue "0px" = some v ∧ 0 < v := by
  have hp : pxValue "0px" = some 0 := by decide
  refine ⟨rfl, by decide, rfl, ?_, hp, ?_⟩
  · rw [onToggleSidebar_calls]
    have h1 : select (onToggleSidebar zeroLayout (documentReady samplePage)).dom
        (.simple (.cls "course-card")) = [[0, 2]] := by decide
    have h2 : select (onToggleSidebar zeroLayout (documentReady samplePage)).dom
        (.simple (.cls "course-accordion")) = [[0, 1]] := by decide
    have h3 : widthOf zeroLayout (documentReady samplePage).dom
        (select (documentReady samplePage).dom (.simple (.cls "course-accordion")))
        = some ⟨0, 0⟩ := by decide
    have h4 : (documentReady samplePage).sidebarToggle = false := rfl
    rw [h1, h2, h3, h4]
    have h5 : halfToString (some ⟨0, 0⟩) ++ "px" = "0px" := by decide
    have h6 : "-" ++ numToString (some ⟨0, 0⟩) ++ "px" = "-0px" := by decide
    simp only [Bool.not_false, if_true, h5, h6]
  · rintro ⟨v, hv, hpos⟩
    rw [hp] at hv
    cases hv
    exact lt_irrefl _ hpos

/-- C3 (amended): with `w` the width of the sidebar read when the click
arrives (whole or fractional), the first `animate` call of the handler is
the one on `.course-card`.  When the click hides the sidebar its
`margin-left` target denotes exactly the length `w / 2`, with no rounding or
truncation; that length is never negative, is positive whenever `w` is, and
is half the magnitude of the sidebar target of the same click.  When the
click expands the sidebar, the card target denotes the length 0. -/
theorem card_margin_target (env : Layout) (s : Page) (w : JsNum)
    (hw : widthOf env s.dom (select s.dom (.simple (.cls "course-accordion"))) = some w) :
    ∃ cardV sideV,
      (onToggleSidebar env s).calls = s.calls ++
        [ Call.animate (select (onToggleSidebar env s).dom (.simple (.cls "course-card")))
            "margin-left" cardV 300,
          Call.animate (select (onToggleSidebar env s).dom (.simple (.cls "course-accordion")))
            "margin-left" sideV 300 ] ∧
      (s.sidebarToggle = false →
        (onToggleSidebar env s).sidebarToggle = true ∧
        cardV = w.half.text ++ "px" ∧
        pxValue cardV = some (w.value / 2) ∧ 0 ≤ w.value / 2 ∧
        (0 < w.value → 0 < w.value / 2) ∧
        ∃ sv, pxValue sideV = some sv ∧ w.value / 2 = |sv| / 2) ∧
      (s.sidebarToggle = true →
        (onToggleSidebar env s).sidebarToggle = false ∧ pxValue cardV = some 0) := by
  have hnn := JsNum.value_nonneg w
  refine ⟨_, _, onToggleSidebar_calls env s, ?_, ?_⟩
  · intro hf
    refine ⟨by simp [onToggleSidebar, hf], ?_, ?_, by linarith, fun h => by linarith,
      -w.value, ?_, ?_⟩
    · simp [hf, hw, halfToString]
    · simp only [hf, hw, halfToString, Bool.not_false, if_true]
      rw [pxValue_text, JsNum.value_half]
    · simp only [hf, hw, numToString, Bool.not_false, if_true]
      exact pxValue_minus_text w
    · rw [abs_neg, abs_of_nonneg hnn]
  · intro hf
    refine ⟨by simp [onToggleSidebar, hf], ?_⟩
    simp only [hf, Bool.not_true, Bool.false_eq_true, if_false]
    decide

theorem card_margin_target_witness :
    widthOf fractionalLayout (documentReady samplePage).dom
      (select (documentReady samplePage).dom (.simple (.cls "course-accordion")))
      = some ⟨2775, 1⟩ ∧
    ∃ cardV sideV,
      (onToggleSidebar fractionalLayout (documentReady samplePage)).calls =
        (documentReady samplePage).calls ++
        [ Call.animate [[0, 2]] "margin-left" cardV 300,
          Call.animate [[0, 1]] "margin-left" sideV 300 ] ∧
      cardV = "138.75px" ∧ pxValue cardV = some (555 / 4) := by
  have hw : widthOf fractionalLayout (documentReady samplePage).dom
      (select (documentReady samplePage).dom (.simple (.cls "course-accordion")))
      = some ⟨2775, 1⟩ := by decide
  obtain ⟨cardV, sideV, hc, hh, _⟩ :=
    card_margin_target fractionalLayout (documentReady samplePage) ⟨2775, 1⟩ hw
  have h1 : select (onToggleSidebar fractionalLayout (documentReady samplePage)).dom
      (.simple (.cls "course-card")) = [[0, 2]] := by decide
  have h2 : select (onToggleSidebar fractionalLayout (documentReady samplePage)).dom
      (.simple (.cls "course-accordion")) = [[0, 1]] := by decide
  rw [h1, h2] at hc
  obtain ⟨_, hs, hv, _⟩ := hh rfl
  refine ⟨hw, cardV, sideV, hc, ?_, ?_⟩
  · rw [hs]; decide
  · rw [hv]; norm_num [JsNum.value]

end CourseJs
namespace CourseJs

/-! # Events the carousel listener can receive -/

theorem matchesAt_map_one (f : Attrs → Attrs) (x : Simple)
    (hf : ∀ a, x.test (f a) = x.test a) (d : Dom) (p : Path) :
    matchesAt (d.map f) x p = matchesAt d x p := by
  unfold matchesAt
  rw [Dom.attrsAt_map]
  cases d.attrsAt p with
  | none => rfl
  | some a => exact hf a

theorem matchesAt_each_simple (g : Attrs → Attrs) (x y : Simple)
    (hg : ∀ a, x.test (g a) = x.test a) (d : Dom) (p : Path) :
    matchesAt (each (select d (.simple y)) g d) x p = matchesAt d x p := by
  rw [each_select_simple]
  apply matchesAt_map_one
  intro a
  by_cases h : y.test a = true
  · simp [h, hg]
  · simp [h]

theorem matchesAt_appendKids (e : Dom) (t : Path) (d : Dom) (x : Simple) (p : Path)
    (h : matchesAt d x p = true) : matchesAt (Dom.appendKids e t d) x p = true := by
  unfold matchesAt at *
  cases ha : d.attrsAt p with
  | none => simp [ha] at h
  | some a =>
    rw [Dom.attrsAt_appendKids e t d p a ha]
    simpa [ha] using h

theorem closestRev_isSome (d : Dom) (x : Simple) (l m : List Nat) (hm : m <:+ l)
    (h : matchesAt d x m.reverse = true) : (closestRev d x l).isSome = true := by
  induction l with
  | nil =>
    have : m = [] := List.eq_nil_of_suffix_nil hm
    subst this
    simp [matchesAt] at h
  | cons i r ih =>
    unfold closestRev
    by_cases hi : matchesAt d x (i :: r).reverse = true
    · rw [if_pos hi]; rfl
    · rw [if_neg hi]
      rcases List.suffix_cons_iff.mp hm with rfl | hr
      · exact absurd h hi
      · exact ih hr

theorem closest_isSome (d : Dom) (x : Simple) (e target : Path) (he : e <+: target)
    (h : matchesAt d x e = true) : (closest d x target).isSome = true :=
  closestRev_isSome d x target.reverse e.reverse (List.reverse_suffix.mpr he)
    (by simpa using h)

theorem test_toggleClass_carousel (a : Attrs) :
    (Simple.cls "course-carousel").test (toggleClass "hide-sidenav" a)
      = (Simple.cls "course-carousel").test a :=
  hasClass_toggleClass_ne "hide-sidenav" "course-carousel" (by decide) a

theorem dispatch_bindings (env : Layout) (s : Page) (e : Event) :
    (dispatch env s e).bindings = s.bindings := by
  cases e with
  | toggleClick => rfl
  | closeNavClick => rfl
  | carouselChanged target =>
    cases h : positionOf env s.dom (closest s.dom (.cls "course-carousel") target).toList <;>
      simp [dispatch, onCarouselChanged, h]

theorem dispatch_matchesAt_carousel (env : Layout) (s : Page) (e : Event) (p : Path) :
    matchesAt (dispatch env s e).dom (.cls "course-carousel") p
      = matchesAt s.dom (.cls "course-carousel") p := by
  cases e with
  | toggleClick =>
    exact matchesAt_each_simple _ _ _ test_toggleClass_carousel _ _
  | closeNavClick =>
    exact matchesAt_each_simple _ _ _ (fun a => test_hideNav a _) _ _
  | carouselChanged target =>
    cases h : positionOf env s.dom (closest s.dom (.cls "course-carousel") target).toList <;>
      simp [dispatch, onCarouselChanged, h]

theorem run_bindings (env : Layout) (es : List Event) (s : Page) :
    (run env s es).bindings = s.bindings := by
  induction es generalizing s with
  | nil => rfl
  | cons e es ih =>
    have : run env s (e :: es) = run env (dispatch env s e) es := rfl
    rw [this, ih, dispatch_bindings]

theorem run_matchesAt_carousel (env : Layout) (es : List Event) (s : Page) (p : Path) :
    matchesAt (run env s es).dom (.cls "course-carousel") p
      = matchesAt s.dom (.cls "course-carousel") p := by
  induction es generalizing s with
  | nil => rfl
  | cons e es ih =>
    have : run env s (e :: es) = run env (dispatch env s e) es := rfl
    rw [this, ih, dispatch_matchesAt_carousel]

theorem carouselBound_documentReady (d : Dom) :
    carouselBound (documentReady d) = select d (.simple (.cls "course-carousel")) := by
  have hb : (documentReady d).bindings.filter (fun b => b.handler == Handler.carouselChanged)
      = [⟨select (beforeClone d).dom (.simple (.cls "course-carousel")),
          "changed.owl.carousel", none, .carouselChanged⟩] := by
    simp only [documentReady, beforeClone, bindOn, callPlugin, cloneStep, List.nil_append,
      List.cons_append, List.filter_cons, List.filter_nil]
    simp
  unfold carouselBound
  rw [hb, beforeClone_dom_eq_map, select_map widgetSetup test_widgetSetup]
  simp [List.flatMap]

theorem documentReady_matchesAt_carousel (d : Dom) (p : Path)
    (h : matchesAt d (.cls "course-carousel") p = true) :
    matchesAt (documentReady d).dom (.cls "course-carousel") p = true := by
  rw [documentReady_dom, callPlugin]
  simp only
  rw [matchesAt_each_simple _ _ _ (fun a => test_addWidget _ _ a)]
  have h1 : matchesAt (d.map widgetSetup) (.cls "course-carousel") p = true := by
    rw [matchesAt_map_one widgetSetup _ (fun a => test_widgetSetup _ a)]
    exact h
  have h2 : (cloneStep (beforeClone d)).dom = afterClone d := rfl
  rw [h2, afterClone_eq]
  unfold appendTo
  cases selectId d "courseMobileSidebar" with
  | nil => exact h1
  | cons t _ => exact matchesAt_appendKids _ t _ _ p h1

/-- In every state reached from page load, for every event the carousel
listener can receive, the lookup from `event.target` finds a
`.course-carousel` element and the handler returns normally, with exactly
one `scrollTo` call for the position of that element. -/
theorem carousel_lookup_finds (env : Layout) (d : Dom) (es : List Event) (target : Path)
    (h : receivable (run env (documentReady d) es) target) :
    ∃ c, closest (run env (documentReady d) es).dom (.cls "course-carousel") target = some c ∧
      onCarouselChanged env (run env (documentReady d) es) target =
        .ok { run env (documentReady d) es with
          calls := (run env (documentReady d) es).calls ++
            [Call.scrollTo "smooth"
              (env.position (run env (documentReady d) es).dom c).left
              (env.position (run env (documentReady d) es).dom c).top] } := by
  obtain ⟨e, he, hpre⟩ := h
  unfold carouselBound at he
  rw [run_bindings] at he
  have he2 : e ∈ select d (.simple (.cls "course-carousel")) := by
    rw [← carouselBound_documentReady]
    exact he
  obtain ⟨a, ha, hta⟩ := (mem_select_simple d _ e).mp he2
  have hm0 : matchesAt d (.cls "course-carousel") e = true := by
    simp [matchesAt, ha, hta]
  have hm : matchesAt (run env (documentReady d) es).dom (.cls "course-carousel") e = true := by
    rw [run_matchesAt_carousel]
    exact documentReady_matchesAt_carousel d e hm0
  have hs := closest_isSome _ _ e target hpre hm
  cases hc : closest (run env (documentReady d) es).dom (.cls "course-carousel") target with
  | none => simp [hc] at hs
  | some c =>
    refine ⟨c, rfl, ?_⟩
    simp [onCarouselChanged, hc, positionOf]

end CourseJs
